import Mathlib

/-! The PAK archive reader and entry extractor of pakextract

A shallow embedding of `pakextract.go`.

* Bytes are `Fin 256`; Go strings and byte slices are `List Byte`; `uint32`
  values are natural numbers below `2^32`.
* An open `*os.File` on a regular file is its content together with the read
  cursor. One `Read` returns the bytes that are available at the cursor, up to
  the size of the buffer.
* The output tree is a partial map from path strings to nodes. The program
  names every node by a path that `filepath.Join` has cleaned, and the map is
  keyed by these strings. The directories that exist on every system (`.`,
  `/`, `..`, `../..` and so on) are not keys of the map: `os.MkdirAll` finds
  them in place and `os.WriteFile` refuses to write over them. The archive
  that is read is not a node of the tree.
* The limits a system puts on the length of a path and on the size of one
  read are not modelled.
* The functions of the Go library the program calls (`binary.Read`,
  `strings.TrimRight`, `strings.Split`, `strings.Join`, `filepath.Join`,
  `os.MkdirAll`, `os.WriteFile`) are modelled by what they do on a system
  whose path separator is `/`.
-/

set_option autoImplicit false

namespace PakExtract

/-! ## Bytes and strings -/

abbrev Byte := Fin 256

/-- The bytes of an ASCII string literal -/
def ascii (s : String) : List Byte :=
  s.data.map (fun c => Fin.ofNat c.toNat)

/-- The NUL byte -/
def NUL : Byte := 0

/-- The path separator, the byte of `/` -/
def SEP : Byte := 47

/-- The byte of `.` -/
def DOT : Byte := 46

/-! ## The source file -/

/-- An open `*os.File` on a regular file: content and read cursor -/
structure File where
  data : List Byte
  pos : Nat
deriving DecidableEq, Repr

/-- The result of `os.Open`: the cursor is at byte 0 -/
def File.opened (data : List Byte) : File := ⟨data, 0⟩

/-- The errors of a read: `io.EOF` and `io.ErrUnexpectedEOF` -/
inductive ReadErr where
  | eof
  | unexpectedEOF
deriving DecidableEq, Repr

/-- Method `(*os.File).Read(b)` with `len(b) = n`: a request for zero bytes
returns at once; otherwise the bytes available at the cursor, up to `n`, are
returned and the cursor moves past them, and `io.EOF` is returned when none
is available. -/
def File.read (f : File) (n : Nat) : Except ReadErr (List Byte) × File :=
  if n = 0 then (.ok [], f)
  else
    let got := (f.data.drop f.pos).take n
    if got = [] then (.error .eof, f)
    else (.ok got, { f with pos := f.pos + got.length })

/-- Function `io.ReadFull(f, buf)` with `len(buf) = n > 0` over `File.read`:
all `n` bytes or an error, `io.EOF` when no byte was read and
`io.ErrUnexpectedEOF` when some but not all were. The cursor moves past the
bytes that were read. -/
def readFull (f : File) (n : Nat) : Except ReadErr (List Byte) × File :=
  let got := (f.data.drop f.pos).take n
  let f1 : File := { f with pos := f.pos + got.length }
  if got.length = n then (.ok got, f1)
  else if got = [] then (.error .eof, f1)
  else (.error .unexpectedEOF, f1)

/-- Method `(*os.File).Seek(offset, 0)`: an absolute seek on a regular file
fails only for a negative offset; a position past the end is accepted. -/
def File.seek (f : File) (offset : Int) : Except Unit File :=
  if offset < 0 then .error () else .ok { f with pos := offset.toNat }

/-! ## On-disk records -/

/-- The value of `binary.LittleEndian.Uint32` on the first four bytes -/
def le32 (bs : List Byte) : Nat :=
  (bs.getD 0 0).val + 256 * (bs.getD 1 0).val + 65536 * (bs.getD 2 0).val
    + 16777216 * (bs.getD 3 0).val

structure PakHeader where
  Magic : List Byte
  DirOffset : Nat
  DirLength : Nat
deriving DecidableEq, Repr

structure PakDirectory where
  Name : List Byte
  Offset : Nat
  Length : Nat
deriving DecidableEq, Repr

structure PakFileEntry where
  Name : List Byte
  Offset : Nat
  Length : Nat
deriving DecidableEq, Repr

/-- The size `binary.Read` computes for `PakHeader` -/
def headerSize : Nat := 12

/-- The size `binary.Read` computes for `PakDirectory` -/
def directorySize : Nat := 64

/-- Little-endian decoding of the 12 header bytes into `PakHeader` -/
def decodeHeader (bs : List Byte) : PakHeader :=
  { Magic := bs.take 4, DirOffset := le32 (bs.drop 4), DirLength := le32 (bs.drop 8) }

/-- Little-endian decoding of the 64 record bytes into `PakDirectory` -/
def decodeDirectory (bs : List Byte) : PakDirectory :=
  { Name := bs.take 56, Offset := le32 (bs.drop 56), Length := le32 (bs.drop 60) }

/-- Function `strings.TrimRight(s, cutset)` for a cutset of one ASCII byte:
the trailing bytes equal to `c` are removed. -/
def trimRightByte (s : List Byte) (c : Byte) : List Byte :=
  (s.reverse.dropWhile (fun b => b = c)).reverse

/-- The literal `"PACK"` -/
def PACK : List Byte := [80, 65, 67, 75]

/-! ## CollectPakFileEntries -/

inductive CollectError where
  | readHeader (cause : ReadErr)
  | invalidMagic (magic : List Byte)
  | seekDirectory
  | readEntry (i : Nat) (cause : ReadErr)
deriving DecidableEq, Repr

/-- The text of `err.Error()` for a read error -/
def ReadErr.message : ReadErr → List Byte
  | .eof => ascii "EOF"
  | .unexpectedEOF => ascii "unexpected EOF"

/-- The text of the error built by `fmt.Errorf`; `%s` prints the magic array
as its raw bytes. The text of a seek failure, which carries the name of the
file, is left at the system's `invalid argument`. -/
def CollectError.message : CollectError → List Byte
  | .readHeader c => ascii "Failed to read PAK header: " ++ c.message
  | .invalidMagic m => ascii "Invalid file magic: " ++ m
  | .seekDirectory => ascii "Failed to seek to directory offset: invalid argument"
  | .readEntry i c =>
      ascii "Failed to read directory entry " ++ ascii (Nat.repr i) ++ ascii ": " ++ c.message

/-- The two results of `CollectPakFileEntries` and the file it leaves -/
structure CollectResult where
  entries : List PakFileEntry
  err : Option CollectError
  file : File
deriving DecidableEq, Repr

/-- The file entry appended for one directory record (lines 63 to 70) -/
def toFileEntry (d : PakDirectory) : PakFileEntry :=
  { Name := trimRightByte d.Name NUL, Offset := d.Offset, Length := d.Length }

/-- The loop of lines 56 to 71: `k` iterations remain, `i` is the index of the
next record, `entries` the slice built so far. -/
def collectLoop : Nat → Nat → File → List PakFileEntry → CollectResult
  | 0, _, f, entries => { entries := entries, err := none, file := f }
  | k + 1, i, f, entries =>
    match readFull f directorySize with
    | (.error e, f1) => { entries := [], err := some (.readEntry i e), file := f1 }
    | (.ok bs, f1) =>
      collectLoop k (i + 1) f1 (entries ++ [toFileEntry (decodeDirectory bs)])

def CollectPakFileEntries (pakFile : File) : CollectResult :=
  match readFull pakFile headerSize with
  | (.error e, f1) => { entries := [], err := some (.readHeader e), file := f1 }
  | (.ok bs, f1) =>
    let header := decodeHeader bs
    if header.Magic ≠ PACK then
      { entries := [], err := some (.invalidMagic header.Magic), file := f1 }
    else
      match f1.seek (Int.ofNat header.DirOffset) with
      | .error _ => { entries := [], err := some .seekDirectory, file := f1 }
      | .ok f2 =>
        let numEntries := header.DirLength / 64
        collectLoop numEntries 0 f2 []

/-! ## The fields of an archive, by position -/

/-- The magic field: bytes 0 to 3 -/
def magicOf (data : List Byte) : List Byte := data.take 4

/-- The directory offset: the little-endian value of bytes 4 to 7 -/
def dirOffsetOf (data : List Byte) : Nat := le32 (data.drop 4)

/-- The directory length: the little-endian value of bytes 8 to 11 -/
def dirLengthOf (data : List Byte) : Nat := le32 (data.drop 8)

/-- The 64 bytes of record `i` of a directory table that starts at `dirOffset` -/
def recordAt (data : List Byte) (dirOffset i : Nat) : List Byte :=
  (data.drop (dirOffset + 64 * i)).take 64

/-- The entry decoded from record `i` -/
def entryAt (data : List Byte) (dirOffset i : Nat) : PakFileEntry :=
  toFileEntry (decodeDirectory (recordAt data dirOffset i))

/-- Whether the error wraps a failed read of the header or of a record -/
def CollectError.isReadError : CollectError → Bool
  | .readHeader _ => true
  | .readEntry _ _ => true
  | _ => false

/-- The value of `binary.LittleEndian.PutUint32`: the four bytes of `n` -/
def putLE32 (n : Nat) : List Byte :=
  [Fin.ofNat n, Fin.ofNat (n / 256), Fin.ofNat (n / 65536), Fin.ofNat (n / 16777216)]

/-- The archive with bytes 8 to 11, the directory length, replaced -/
def setDirLength (data : List Byte) (len : Nat) : List Byte :=
  data.take 8 ++ putLE32 len ++ data.drop 12

/-- A name field: the name padded with NUL bytes to 56 bytes -/
def nameField (name : List Byte) : List Byte :=
  name ++ List.replicate (56 - name.length) NUL

/-- The bytes of one directory record -/
def recordBytes (name : List Byte) (offset length : Nat) : List Byte :=
  nameField name ++ putLE32 offset ++ putLE32 length

/-- The archive of the scenario: one record `hello.txt` and the payload `world` -/
def helloArchive : List Byte :=
  PACK ++ putLE32 12 ++ putLE32 64 ++ recordBytes (ascii "hello.txt") 76 5 ++ ascii "world"

/-- An archive whose directory length 130 is not a multiple of 64: two complete
records and nothing after them -/
def archive130 : List Byte :=
  PACK ++ putLE32 12 ++ putLE32 130 ++ recordBytes (ascii "a.txt") 140 0
    ++ recordBytes (ascii "b.txt") 140 0

/-- An archive whose directory table starts at byte 0 and so overlaps the header -/
def overlapArchive : List Byte :=
  PACK ++ putLE32 0 ++ putLE32 65 ++ List.replicate 52 NUL

/-- A source of 12 bytes: a header with the magic `XXXX` that announces one
record at byte 12, and nothing after the header -/
def badMagicHeader : List Byte :=
  ascii "XXXX" ++ putLE32 12 ++ putLE32 64

/-! ## Paths -/

/-- Function `strings.Split(s, sep)` for a separator of one byte: the pieces
between the separators, one more than there are separators. -/
def splitByte (c : Byte) : List Byte → List (List Byte)
  | [] => [[]]
  | b :: bs =>
    if b = c then [] :: splitByte c bs
    else
      match splitByte c bs with
      | [] => [[b]]
      | s :: ss => (b :: s) :: ss

/-- Function `strings.Join(elems, sep)` -/
def joinWith (sep : List Byte) (elems : List (List Byte)) : List Byte :=
  sep.intercalate elems

/-- The backward scan of the `..` case of `filepath.Clean`: starting at `w`,
the write index moves down while it is above `dotdot` and the byte under it
is not a separator. -/
def backtrack (out : List Byte) (dotdot : Nat) : Nat → Nat
  | 0 => 0
  | w + 1 =>
    if dotdot < w + 1 ∧ out.getD (w + 1) 0 ≠ SEP then backtrack out dotdot w else w + 1

/-- The loop of `filepath.Clean`: `p` is the unread rest `path[r:]`, `out` the
bytes written so far (`out.length` is the write index `w`). Every iteration
reads at least one byte, so a `fuel` of the length of the path is enough. -/
def cleanLoop (rooted : Bool) : Nat → List Byte → List Byte → Nat → List Byte
  | 0, _, out, _ => out
  | _ + 1, [], out, _ => out
  | fuel + 1, c :: rest, out, dotdot =>
    if c = SEP then
      -- empty path element
      cleanLoop rooted fuel rest out dotdot
    else if c = DOT ∧ (rest = [] ∨ rest.head? = some SEP) then
      -- . element
      cleanLoop rooted fuel rest out dotdot
    else if c = DOT ∧ rest.head? = some DOT ∧
        (rest.tail = [] ∨ rest.tail.head? = some SEP) then
      -- .. element: remove to last separator
      if dotdot < out.length then
        cleanLoop rooted fuel rest.tail
          (out.take (backtrack out dotdot (out.length - 1))) dotdot
      else if ¬ rooted then
        let out1 := (if 0 < out.length then out ++ [SEP] else out) ++ [DOT, DOT]
        cleanLoop rooted fuel rest.tail out1 out1.length
      else
        cleanLoop rooted fuel rest.tail out dotdot
    else
      -- real path element: add slash if needed, copy element
      let out1 :=
        if (rooted ∧ out.length ≠ 1) ∨ (¬ rooted ∧ out.length ≠ 0) then out ++ [SEP] else out
      cleanLoop rooted fuel ((c :: rest).dropWhile (fun b => b ≠ SEP))
        (out1 ++ (c :: rest).takeWhile (fun b => b ≠ SEP)) dotdot

/-- Function `filepath.Clean` on a system whose separator is `/` -/
def Clean (path : List Byte) : List Byte :=
  if path = [] then [DOT]
  else
    let rooted : Bool := path.head? = some SEP
    let out :=
      if rooted then cleanLoop rooted path.length path.tail [SEP] 1
      else cleanLoop rooted path.length path [] 0
    if out = [] then [DOT] else out

/-- Function `filepath.Join`: the elements from the first non-empty one on are
joined with the separator and the result is cleaned; the join of empty
elements only is the empty string. -/
def filepathJoin : List (List Byte) → List Byte
  | [] => []
  | e :: rest => if e ≠ [] then Clean (joinWith [SEP] (e :: rest)) else filepathJoin rest

/-- The directory part computed in lines 90 and 91: the path is split at the
separators and all pieces but the last are joined again. -/
def dirPathOf (extractPath : List Byte) : List Byte :=
  joinWith [SEP] (splitByte SEP extractPath).dropLast

/-! ## The output tree -/

inductive Node where
  | dir
  | file (content : List Byte)
deriving DecidableEq, Repr

/-- The part of the file system the program writes to: a partial map from path
strings to nodes. The root directory, the working directory and the
directories above it are not keys of the map; they exist throughout and are
recognised by `alwaysDir`. -/
abbrev FS := List Byte → Option Node

/-- The empty tree -/
def FS.empty : FS := fun _ => none

def FS.set (fs : FS) (p : List Byte) (n : Node) : FS :=
  fun q => if q = p then some n else fs q

inductive FSErr where
  | ENOENT
  | ENOTDIR
  | EISDIR
  | EINVAL
deriving DecidableEq, Repr

/-- The cleaned paths that name a directory on every system, whatever the tree
holds: the working directory `.`, the root `/`, and the paths made of `..`
elements only (`..`, `../..` and so on) -/
def alwaysDir (p : List Byte) : Bool :=
  p == [DOT] || p == [SEP] || (splitByte SEP p).all (fun s => s == [DOT, DOT])

/-- The directories on the way to `path`, the nearest first: `path` itself and
its prefixes that end before a separator, the empty prefix left out. -/
def dirChain (path : List Byte) : List (List Byte) :=
  ((List.range (splitByte SEP path).length).reverse.map
    (fun k => joinWith [SEP] ((splitByte SEP path).take (k + 1)))).filter (fun q => q ≠ [])

/-- The recursion of `os.MkdirAll` along the chain of a path: a directory that
exists (one that always exists, or a directory of the tree) ends the descent,
a file in its place is an error, and a missing directory is made by
`os.Mkdir` once its parent has been made. A path with a NUL byte is refused
by the system, after the ancestors have been made. The tree is returned in
both cases: the directories made before a failure stay. -/
def mkdirChain (fs : FS) : List (List Byte) → Option FSErr × FS
  | [] => (none, fs)
  | p :: parents =>
    if NUL ∈ p then
      match mkdirChain fs parents with
      | (some e, fs1) => (some e, fs1)
      | (none, fs1) => (some .EINVAL, fs1)
    else if alwaysDir p = true then (none, fs)
    else
      match fs p with
      | some .dir => (none, fs)
      | some (.file _) => (some .ENOTDIR, fs)
      | none =>
        match mkdirChain fs parents with
        | (some e, fs1) => (some e, fs1)
        | (none, fs1) => (none, fs1.set p .dir)

/-- Function `os.MkdirAll(path, 0755)`; the kinds of the errors are indicative -/
def MkdirAll (fs : FS) (path : List Byte) : Option FSErr × FS :=
  if path = [] then (some .ENOENT, fs) else mkdirChain fs (dirChain path)

/-- Function `os.WriteFile(name, data, 0644)`: the file is created or
truncated and written. It fails for the empty name, for a name with a NUL
byte, when the name is a directory (one that always exists, or a directory of
the tree), and when the directory part of the name is missing or is a file. -/
def WriteFile (fs : FS) (name data : List Byte) : Except FSErr FS :=
  if name = [] then .error .ENOENT
  else if NUL ∈ name then .error .EINVAL
  else if alwaysDir name = true then .error .EISDIR
  else
    match fs name with
    | some .dir => .error .EISDIR
    | _ =>
      if dirPathOf name = [] ∨ alwaysDir (dirPathOf name) = true then
        .ok (fs.set name (.file data))
      else
        match fs (dirPathOf name) with
        | some .dir => .ok (fs.set name (.file data))
        | some (.file _) => .error .ENOTDIR
        | none => .error .ENOENT

/-! ## ExtractPakFileEntry and main -/

structure Flags where
  OutputDir : List Byte
  Verbose : Bool
deriving DecidableEq, Repr

inductive ExtractError where
  | seekData
  | readData (cause : ReadErr)
  | createDirectories (cause : FSErr)
  | writeFile (cause : FSErr)
deriving DecidableEq, Repr

/-- The destination path of line 88: the output directory joined with the
name of the entry -/
def extractPathOf (flags : Flags) (entry : PakFileEntry) : List Byte :=
  filepathJoin [flags.OutputDir, entry.Name]

/-- The buffer of lines 82 and 83 after the read: `entry.Length` bytes, the
bytes that were read followed by the zero bytes the buffer was made with -/
def bufferOf (entry : PakFileEntry) (got : List Byte) : List Byte :=
  got ++ List.replicate (entry.Length - got.length) 0

/-- A call into the `os` package that changes the output tree -/
inductive OsCall where
  | mkdirAll (path : List Byte)
  | writeFile (name data : List Byte)
deriving DecidableEq, Repr

/-- The result of `ExtractPakFileEntry`, the file and the output tree it
leaves, and the calls it made into the `os` package, in order -/
structure ExtractResult where
  err : Option ExtractError
  file : File
  fs : FS
  calls : List OsCall

/-- The extractor. The buffer of `entry.Length` zero bytes is filled from its
start by the one `Read`. The verbose print of lines 100 to 102 goes to
standard output only and is left out. -/
def ExtractPakFileEntry (flags : Flags) (file : File) (entry : PakFileEntry) (fs : FS) :
    ExtractResult :=
  match file.seek (Int.ofNat entry.Offset) with
  | .error _ => { err := some .seekData, file := file, fs := fs, calls := [] }
  | .ok f1 =>
    match f1.read entry.Length with
    | (.error e, f2) => { err := some (.readData e), file := f2, fs := fs, calls := [] }
    | (.ok got, f2) =>
      let data := bufferOf entry got
      let extractPath := extractPathOf flags entry
      let dirPath := dirPathOf extractPath
      if dirPath ≠ [] then
        match MkdirAll fs dirPath with
        | (some e, fs1) =>
          { err := some (.createDirectories e), file := f2, fs := fs1,
            calls := [.mkdirAll dirPath] }
        | (none, fs1) =>
          match WriteFile fs1 extractPath data with
          | .error e =>
            { err := some (.writeFile e), file := f2, fs := fs1,
              calls := [.mkdirAll dirPath, .writeFile extractPath data] }
          | .ok fs2 =>
            { err := none, file := f2, fs := fs2,
              calls := [.mkdirAll dirPath, .writeFile extractPath data] }
      else
        match WriteFile fs extractPath data with
        | .error e =>
          { err := some (.writeFile e), file := f2, fs := fs,
            calls := [.writeFile extractPath data] }
        | .ok fs2 =>
          { err := none, file := f2, fs := fs2, calls := [.writeFile extractPath data] }

/-- The loop of lines 134 to 136: the error of each call is dropped -/
def extractAll (flags : Flags) : File → List PakFileEntry → FS → File × FS
  | file, [], fs => (file, fs)
  | file, entry :: rest, fs =>
    extractAll flags (ExtractPakFileEntry flags file entry fs).file rest
      (ExtractPakFileEntry flags file entry fs).fs

/-- The program from line 124 on, for an archive that was opened: the output
tree it leaves. -/
def main (flags : Flags) (data : List Byte) (fs : FS) : FS :=
  if (CollectPakFileEntries (File.opened data)).err ≠ none then fs
  else
    (extractAll flags (CollectPakFileEntries (File.opened data)).file
      (CollectPakFileEntries (File.opened data)).entries fs).2

/-! ## Plain paths -/

/-- A path element that `filepath.Clean` keeps as it is: not empty, not `.`
and not `..` -/
def plainSegment (s : List Byte) : Bool :=
  decide (s ≠ [] ∧ s ≠ [DOT] ∧ s ≠ [DOT, DOT])

/-- A relative path made of plain elements: it is not empty, does not begin or
end with a separator and has no two separators in a row -/
def plainRel (p : List Byte) : Bool :=
  (splitByte SEP p).all plainSegment

/-- A plain relative path, or a separator followed by one -/
def plainPath (p : List Byte) : Bool :=
  plainRel p || (decide (p.head? = some SEP) && plainRel p.tail)

/-! ## Destinations and payloads -/

/-- The directories above a destination path: the chain of its directory part -/
def ancestorsOf (p : List Byte) : List (List Byte) :=
  dirChain (dirPathOf p)

/-- The bytes of the archive in the range of an entry -/
def payloadOf (data : List Byte) (entry : PakFileEntry) : List Byte :=
  (data.drop entry.Offset).take entry.Length

/-- An archive of two entries named `a` and `./a` with the payloads `1` and `2` -/
def twoNamesArchive : List Byte :=
  PACK ++ putLE32 12 ++ putLE32 128 ++ recordBytes (ascii "a") 140 1
    ++ recordBytes (ascii "./a") 141 1 ++ ascii "12"

/-- The flags `--output=out` -/
def outFlags : Flags := ⟨ascii "out", false⟩

/-- An entry whose name has two directories, over the payload of `helloArchive` -/
def nestedEntry : PakFileEntry := ⟨ascii "sub/dir/file.txt", 76, 5⟩

/-! ## The driver, with the calls it makes -/

/-- The calls of the loop of lines 134 to 136, in order: the entry each call
to `ExtractPakFileEntry` is made on and the error it returns, which the loop
drops -/
def extractAllLog (flags : Flags) :
    File → List PakFileEntry → FS → List (PakFileEntry × Option ExtractError)
  | _, [], _ => []
  | file, entry :: rest, fs =>
    (entry, (ExtractPakFileEntry flags file entry fs).err) ::
      extractAllLog flags (ExtractPakFileEntry flags file entry fs).file rest
        (ExtractPakFileEntry flags file entry fs).fs

/-- The calls to `ExtractPakFileEntry` the program makes from line 124 on -/
def mainLog (flags : Flags) (data : List Byte) (fs : FS) :
    List (PakFileEntry × Option ExtractError) :=
  if (CollectPakFileEntries (File.opened data)).err ≠ none then []
  else
    extractAllLog flags (CollectPakFileEntries (File.opened data)).file
      (CollectPakFileEntries (File.opened data)).entries fs

/-- One pass of the loop body on the state of the file and the tree, the
error dropped -/
def extractStep (flags : Flags) (s : File × FS) (entry : PakFileEntry) : File × FS :=
  ((ExtractPakFileEntry flags s.1 entry s.2).file, (ExtractPakFileEntry flags s.1 entry s.2).fs)

/-- Whether a path is the output root or lies below it -/
def underRoot (root p : List Byte) : Bool :=
  p == root || (root ++ [SEP]).isPrefixOf p

/-- The bytes of the range `[Offset, Offset + Length)` of the source, when the
range lies inside the source -/
def sourceRange (data : List Byte) (entry : PakFileEntry) : Option (List Byte) :=
  if entry.Offset + entry.Length ≤ data.length then
    some ((data.drop entry.Offset).take entry.Length)
  else none

/-- The bytes `ExtractPakFileEntry` hands to `os.WriteFile`: the bytes of the
source in `[Offset, min (Offset + Length) L)` followed by zero bytes up to
`Length` -/
def writtenOf (data : List Byte) (entry : PakFileEntry) : List Byte :=
  (data.take (min (entry.Offset + entry.Length) data.length)).drop entry.Offset
    ++ List.replicate
      (entry.Length - (min (entry.Offset + entry.Length) data.length - entry.Offset)) 0

/-- An archive of two entries: the range of `lost.txt` starts past the end of
the archive, the range of `kept.txt` is the payload `ok` -/
def failFirstArchive : List Byte :=
  PACK ++ putLE32 12 ++ putLE32 128 ++ recordBytes (ascii "lost.txt") 1000 4
    ++ recordBytes (ascii "kept.txt") 140 2 ++ ascii "ok"

/-- An entry whose name climbs out of the output root -/
def evilEntry : PakFileEntry := ⟨ascii "../evil", 76, 5⟩

/-- An archive whose header places an empty directory far past the end of the
source: directory offset 1000, directory length 63 -/
def farOffsetArchive : List Byte :=
  PACK ++ putLE32 1000 ++ putLE32 63


/-! ## Reading at the cursor -/

theorem readFull_of_le (f : File) (n : Nat) (h : f.pos + n ≤ f.data.length) :
    readFull f n = (.ok ((f.data.drop f.pos).take n), ⟨f.data, f.pos + n⟩) := by
  have hl : ((f.data.drop f.pos).take n).length = n := by
    rw [List.length_take, List.length_drop]; omega
  simp [readFull, hl]

theorem readFull_of_gt (f : File) (n : Nat) (hn : 0 < n) (h : f.data.length < f.pos + n) :
    readFull f n =
      (.error (if f.data.length ≤ f.pos then .eof else .unexpectedEOF),
        ⟨f.data, f.pos + (f.data.length - f.pos)⟩) := by
  have hl : ((f.data.drop f.pos).take n).length = f.data.length - f.pos := by
    rw [List.length_take, List.length_drop]; omega
  have hne : f.data.length - f.pos ≠ n := by omega
  by_cases hz : f.data.length ≤ f.pos
  · have h0 : (f.data.drop f.pos).take n = [] := by
      apply List.eq_nil_of_length_eq_zero; omega
    have hn0 : ¬ (0 = n) := by omega
    simp [readFull, hz, h0, hn0]
  · have h0 : (f.data.drop f.pos).take n ≠ [] := by
      intro hc; rw [hc] at hl; simp at hl; omega
    simp [readFull, hl, hne, hz, h0]

/-! ## The directory loop -/

theorem entryAt_shift (data : List Byte) (off j : Nat) :
    entryAt data (off + 64) j = entryAt data off (j + 1) := by
  unfold entryAt recordAt
  have : off + 64 + 64 * j = off + 64 * (j + 1) := by ring
  rw [this]

theorem collectLoop_of_le (k i : Nat) (f : File) (acc : List PakFileEntry)
    (h : f.pos + 64 * k ≤ f.data.length) :
    collectLoop k i f acc =
      { entries := acc ++ (List.range k).map (entryAt f.data f.pos), err := none,
        file := ⟨f.data, f.pos + 64 * k⟩ } := by
  induction k generalizing i f acc with
  | zero => simp [collectLoop]
  | succ k ih =>
    have h1 : f.pos + directorySize ≤ f.data.length := by unfold directorySize; omega
    rw [collectLoop, readFull_of_le f directorySize h1]
    simp only
    rw [ih]
    · simp only [directorySize, List.range_succ_eq_map, List.map_cons, List.map_map,
        List.append_assoc, List.singleton_append]
      have e0 : toFileEntry (decodeDirectory (List.take 64 (List.drop f.pos f.data)))
          = entryAt f.data f.pos 0 := by simp [entryAt, recordAt]
      have e1 : (entryAt f.data (f.pos + 64)) = (entryAt f.data f.pos ∘ Nat.succ) := by
        funext j; exact entryAt_shift f.data f.pos j
      rw [e0, e1]
      congr 2
      ring
    · simp only [directorySize]; omega

theorem collectLoop_of_gt (k i : Nat) (f : File) (acc : List PakFileEntry)
    (hk0 : 0 < k) (h : f.data.length < f.pos + 64 * k) :
    (collectLoop k i f acc).entries = [] ∧
    (collectLoop k i f acc).err =
      some (.readEntry (i + (f.data.length - f.pos) / 64)
        (if f.data.length ≤ f.pos + 64 * ((f.data.length - f.pos) / 64) then .eof
         else .unexpectedEOF)) := by
  induction k generalizing i f acc with
  | zero => omega
  | succ k ih =>
    by_cases h1 : f.pos + directorySize ≤ f.data.length
    · rw [collectLoop, readFull_of_le f directorySize h1]
      simp only
      unfold directorySize at h1
      have hk : f.data.length < f.pos + 64 + 64 * k := by omega
      have := ih (i + 1) ⟨f.data, f.pos + directorySize⟩
        (acc ++ [toFileEntry (decodeDirectory (List.take directorySize (List.drop f.pos f.data)))])
        (by omega) (by simpa [directorySize] using hk)
      simp only [directorySize] at this ⊢
      have hj : (f.data.length - f.pos) / 64 = (f.data.length - (f.pos + 64)) / 64 + 1 := by omega
      rw [this.1, this.2, hj]
      refine ⟨rfl, ?_⟩
      have e : i + 1 + (f.data.length - (f.pos + 64)) / 64
          = i + ((f.data.length - (f.pos + 64)) / 64 + 1) := by ring
      have e2 : f.pos + 64 + 64 * ((f.data.length - (f.pos + 64)) / 64)
          = f.pos + 64 * ((f.data.length - (f.pos + 64)) / 64 + 1) := by ring
      rw [e]
      simp only [e2]
    · have h2 : f.data.length < f.pos + directorySize := by omega
      rw [collectLoop, readFull_of_gt f directorySize (by decide) h2]
      simp only
      unfold directorySize at h2
      have hj : (f.data.length - f.pos) / 64 = 0 := by omega
      simp [hj]

/-! ## The header -/

theorem getD_take_of_lt (l : List Byte) (n i : Nat) (h : i < n) :
    (l.take n).getD i 0 = l.getD i 0 := by
  simp [List.getD_eq_getElem?_getD, List.getElem?_take, h]

theorem le32_take (l : List Byte) (n : Nat) (h : 4 ≤ n) : le32 (l.take n) = le32 l := by
  unfold le32
  rw [getD_take_of_lt l n 0 (by omega), getD_take_of_lt l n 1 (by omega),
    getD_take_of_lt l n 2 (by omega), getD_take_of_lt l n 3 (by omega)]

theorem le32_lt (l : List Byte) : le32 l < 4294967296 := by
  unfold le32
  have h0 := (l.getD 0 0).isLt
  have h1 := (l.getD 1 0).isLt
  have h2 := (l.getD 2 0).isLt
  have h3 := (l.getD 3 0).isLt
  omega

theorem decodeHeader_take (data : List Byte) :
    decodeHeader (data.take headerSize) =
      { Magic := magicOf data, DirOffset := dirOffsetOf data, DirLength := dirLengthOf data } := by
  unfold decodeHeader magicOf dirOffsetOf dirLengthOf headerSize
  rw [List.take_take, List.drop_take, List.drop_take, le32_take _ _ (by omega),
    le32_take _ _ (by omega)]
  simp

theorem collect_of_short (data : List Byte) (h : data.length < 12) :
    CollectPakFileEntries (File.opened data) =
      { entries := [],
        err := some (.readHeader (if data.length ≤ 0 then .eof else .unexpectedEOF)),
        file := ⟨data, 0 + (data.length - 0)⟩ } := by
  unfold CollectPakFileEntries
  rw [readFull_of_gt (File.opened data) headerSize (by decide)
    (by simpa [File.opened, headerSize] using h)]
  simp [File.opened]

theorem collect_of_bad_magic (data : List Byte) (h : 12 ≤ data.length)
    (hm : magicOf data ≠ PACK) :
    CollectPakFileEntries (File.opened data) =
      { entries := [], err := some (.invalidMagic (magicOf data)), file := ⟨data, 12⟩ } := by
  unfold CollectPakFileEntries
  rw [readFull_of_le (File.opened data) headerSize (by simpa [File.opened, headerSize] using h)]
  simp only [File.opened, List.drop_zero, decodeHeader_take]
  simp [hm, headerSize]

theorem collect_of_header (data : List Byte) (h : 12 ≤ data.length)
    (hm : magicOf data = PACK) :
    CollectPakFileEntries (File.opened data) =
      collectLoop (dirLengthOf data / 64) 0 ⟨data, dirOffsetOf data⟩ [] := by
  unfold CollectPakFileEntries
  rw [readFull_of_le (File.opened data) headerSize (by simpa [File.opened, headerSize] using h)]
  simp only [File.opened, List.drop_zero, decodeHeader_take]
  have hs : ¬ ((dirOffsetOf data : Int) < 0) := by omega
  simp [hm, File.seek, hs]

/-! ## Results of CollectPakFileEntries -/

theorem collect_ok_cases (data : List Byte)
    (h : (CollectPakFileEntries (File.opened data)).err = none) :
    12 ≤ data.length ∧ magicOf data = PACK ∧
      (dirLengthOf data / 64 = 0 ∨
        dirOffsetOf data + 64 * (dirLengthOf data / 64) ≤ data.length) := by
  by_cases hlen : data.length < 12
  · rw [collect_of_short data hlen] at h; simp at h
  · have hlen2 : 12 ≤ data.length := by omega
    by_cases hm : magicOf data = PACK
    · refine ⟨hlen2, hm, ?_⟩
      by_cases hn : dirLengthOf data / 64 = 0
      · exact Or.inl hn
      · right
        by_contra hgt
        have hf := (collectLoop_of_gt (dirLengthOf data / 64) 0 ⟨data, dirOffsetOf data⟩ []
          (by omega) (by simpa using hgt)).2
        rw [collect_of_header data hlen2 hm, hf] at h
        simp at h
    · rw [collect_of_bad_magic data hlen2 hm] at h; simp at h

theorem collect_entries_of_ok (data : List Byte)
    (h : (CollectPakFileEntries (File.opened data)).err = none) :
    (CollectPakFileEntries (File.opened data)).entries =
      (List.range (dirLengthOf data / 64)).map (entryAt data (dirOffsetOf data)) := by
  obtain ⟨hlen, hm, hn⟩ := collect_ok_cases data h
  rw [collect_of_header data hlen hm]
  rcases hn with hn | hn
  · rw [hn]; simp [collectLoop]
  · rw [collectLoop_of_le _ _ _ _ (by simpa using hn)]
    simp

theorem getD_drop_val (l : List Byte) (n i : Nat) :
    (l.drop n).getD i 0 = l.getD (n + i) 0 := by
  simp [List.getD_eq_getElem?_getD, List.getElem?_drop]

theorem dropWhile_eq_replicate (c : Byte) (l : List Byte) :
    ∃ k, l = List.replicate k c ++ l.dropWhile (fun b => b = c) := by
  induction l with
  | nil => exact ⟨0, rfl⟩
  | cons a t ih =>
    by_cases ha : a = c
    · obtain ⟨k, hk⟩ := ih
      refine ⟨k + 1, ?_⟩
      rw [List.dropWhile_cons_of_pos (by simpa using ha), List.replicate_succ, ha]
      simp only [List.cons_append]
      rw [← hk]
    · refine ⟨0, ?_⟩
      rw [List.dropWhile_cons_of_neg (by simpa using ha)]
      simp

theorem dropWhile_head_ne (c : Byte) (l : List Byte) :
    (l.dropWhile (fun b => b = c)).head? ≠ some c := by
  induction l with
  | nil => simp
  | cons a t ih =>
    by_cases ha : a = c
    · rw [List.dropWhile_cons_of_pos (by simpa using ha)]; exact ih
    · rw [List.dropWhile_cons_of_neg (by simpa using ha)]
      simpa using ha

theorem trimRightByte_append (s : List Byte) (c : Byte) :
    ∃ k, s = trimRightByte s c ++ List.replicate k c := by
  obtain ⟨k, hk⟩ := dropWhile_eq_replicate c s.reverse
  refine ⟨k, ?_⟩
  have := congrArg List.reverse hk
  simpa [trimRightByte] using this

theorem trimRightByte_getLast (s : List Byte) (c : Byte) :
    (trimRightByte s c).getLast? ≠ some c := by
  unfold trimRightByte
  rw [List.getLast?_reverse]
  exact dropWhile_head_ne c s.reverse

theorem trimRightByte_of_getLast (s : List Byte) (c : Byte) (h : s.getLast? ≠ some c) :
    trimRightByte s c = s := by
  unfold trimRightByte
  have hh : s.reverse.head? ≠ some c := by rwa [List.head?_reverse]
  cases hr : s.reverse with
  | nil =>
    have : s = [] := by simpa using hr
    simp [this]
  | cons a t =>
    rw [hr] at hh
    have ha : ¬ a = c := by simpa using hh
    rw [List.dropWhile_cons_of_neg (by simpa using ha), ← hr]
    simp

/-! ## Claims about the archive reader -/

/-- C1: when `CollectPakFileEntries` succeeds on a source opened at byte 0, the
number of entries it returns is the header's directory length divided by 64,
rounding down. -/
theorem collect_entry_count (data : List Byte)
    (h : (CollectPakFileEntries (File.opened data)).err = none) :
    (CollectPakFileEntries (File.opened data)).entries.length = dirLengthOf data / 64 := by
  rw [collect_entries_of_ok data h]
  simp

theorem collect_entry_count_witness :
    (CollectPakFileEntries (File.opened helloArchive)).err = none ∧
    (CollectPakFileEntries (File.opened helloArchive)).entries.length
      = dirLengthOf helloArchive / 64 :=
  ⟨by decide, collect_entry_count helloArchive (by decide)⟩

/-- C2: when `CollectPakFileEntries` succeeds, entry `i` is decoded from the 64
bytes at absolute position `dir_offset + 64 * i`: the offset is the
little-endian value of record bytes 56 to 59, the length that of bytes 60 to
63, and the name is record bytes 0 to 55 with the trailing NUL bytes trimmed;
the entries come in the order of the directory table. -/
theorem collect_entry_decoding (data : List Byte)
    (h : (CollectPakFileEntries (File.opened data)).err = none)
    (i : Nat) (hi : i < dirLengthOf data / 64) :
    (recordAt data (dirOffsetOf data) i).length = 64 ∧
    (CollectPakFileEntries (File.opened data)).entries[i]? = some
      { Name := trimRightByte ((recordAt data (dirOffsetOf data) i).take 56) NUL,
        Offset :=
          ((recordAt data (dirOffsetOf data) i).getD 56 0).val
          + 256 * ((recordAt data (dirOffsetOf data) i).getD 57 0).val
          + 65536 * ((recordAt data (dirOffsetOf data) i).getD 58 0).val
          + 16777216 * ((recordAt data (dirOffsetOf data) i).getD 59 0).val,
        Length :=
          ((recordAt data (dirOffsetOf data) i).getD 60 0).val
          + 256 * ((recordAt data (dirOffsetOf data) i).getD 61 0).val
          + 65536 * ((recordAt data (dirOffsetOf data) i).getD 62 0).val
          + 16777216 * ((recordAt data (dirOffsetOf data) i).getD 63 0).val } := by
  obtain ⟨_, _, hn⟩ := collect_ok_cases data h
  have hle : dirOffsetOf data + 64 * (dirLengthOf data / 64) ≤ data.length := by
    rcases hn with hn | hn
    · omega
    · exact hn
  constructor
  · unfold recordAt
    rw [List.length_take, List.length_drop]
    omega
  · rw [collect_entries_of_ok data h]
    rw [List.getElem?_map, List.getElem?_range hi]
    simp only [Option.map_some', entryAt, toFileEntry, decodeDirectory, le32, getD_drop_val]

theorem collect_entry_decoding_witness :
    (CollectPakFileEntries (File.opened helloArchive)).err = none ∧
    0 < dirLengthOf helloArchive / 64 ∧
    (recordAt helloArchive (dirOffsetOf helloArchive) 0).length = 64 ∧
    (CollectPakFileEntries (File.opened helloArchive)).entries[0]? = some
      { Name := trimRightByte ((recordAt helloArchive (dirOffsetOf helloArchive) 0).take 56) NUL,
        Offset :=
          ((recordAt helloArchive (dirOffsetOf helloArchive) 0).getD 56 0).val
          + 256 * ((recordAt helloArchive (dirOffsetOf helloArchive) 0).getD 57 0).val
          + 65536 * ((recordAt helloArchive (dirOffsetOf helloArchive) 0).getD 58 0).val
          + 16777216 * ((recordAt helloArchive (dirOffsetOf helloArchive) 0).getD 59 0).val,
        Length :=
          ((recordAt helloArchive (dirOffsetOf helloArchive) 0).getD 60 0).val
          + 256 * ((recordAt helloArchive (dirOffsetOf helloArchive) 0).getD 61 0).val
          + 65536 * ((recordAt helloArchive (dirOffsetOf helloArchive) 0).getD 62 0).val
          + 16777216 * ((recordAt helloArchive (dirOffsetOf helloArchive) 0).getD 63 0).val } :=
  ⟨by decide, by decide, collect_entry_decoding helloArchive (by decide) 0 (by decide)⟩

/-- C3: the name decoded from a name field is the field without its maximal
run of trailing NUL bytes: the field is the name followed by NUL bytes only,
so leading and interior NUL bytes stay in place, the name does not end in a
NUL byte, and a field whose last byte is not NUL is decoded unchanged. -/
theorem name_decoding (field : List Byte) (offset length : Nat) :
    (∃ k, field = (toFileEntry ⟨field, offset, length⟩).Name ++ List.replicate k NUL) ∧
    (toFileEntry ⟨field, offset, length⟩).Name.getLast? ≠ some NUL ∧
    (field.getLast? = some NUL ∨ (toFileEntry ⟨field, offset, length⟩).Name = field) := by
  refine ⟨trimRightByte_append field NUL, trimRightByte_getLast field NUL, ?_⟩
  by_cases hl : field.getLast? = some NUL
  · exact Or.inl hl
  · exact Or.inr (trimRightByte_of_getLast field NUL hl)

/-- C4, as stated: a source of the four bytes `XXXX` has a first four bytes that
are not `PACK`, and the call fails with the header read error, not with the
invalid-magic error. -/
theorem collect_invalid_magic_short_source :
    magicOf (ascii "XXXX") ≠ PACK ∧
    (CollectPakFileEntries (File.opened (ascii "XXXX"))).err
      = some (.readHeader .unexpectedEOF) ∧
    (CollectPakFileEntries (File.opened (ascii "XXXX"))).err
      ≠ some (.invalidMagic (magicOf (ascii "XXXX"))) := by
  decide

/-- C4, amended: for a source of at least 12 bytes whose first four bytes are
not `PACK`, `CollectPakFileEntries` fails with the invalid-magic error and no
entries, and the message of the error ends with those four bytes. -/
theorem collect_invalid_magic (data : List Byte) (hlen : 12 ≤ data.length)
    (hm : magicOf data ≠ PACK) :
    (CollectPakFileEntries (File.opened data)).entries = [] ∧
    (CollectPakFileEntries (File.opened data)).err = some (.invalidMagic (data.take 4)) ∧
    (data.take 4).length = 4 ∧
    (CollectPakFileEntries (File.opened data)).err.map CollectError.message
      = some (ascii "Invalid file magic: " ++ data.take 4) := by
  rw [collect_of_bad_magic data hlen hm]
  refine ⟨rfl, rfl, ?_, rfl⟩
  rw [List.length_take]; omega

theorem collect_invalid_magic_witness :
    12 ≤ (ascii "XXXXaaaabbbb").length ∧ magicOf (ascii "XXXXaaaabbbb") ≠ PACK ∧
    (CollectPakFileEntries (File.opened (ascii "XXXXaaaabbbb"))).entries = [] ∧
    (CollectPakFileEntries (File.opened (ascii "XXXXaaaabbbb"))).err
      = some (.invalidMagic ((ascii "XXXXaaaabbbb").take 4)) ∧
    ((ascii "XXXXaaaabbbb").take 4).length = 4 ∧
    (CollectPakFileEntries (File.opened (ascii "XXXXaaaabbbb"))).err.map CollectError.message
      = some (ascii "Invalid file magic: " ++ (ascii "XXXXaaaabbbb").take 4) :=
  ⟨by decide, by decide, collect_invalid_magic (ascii "XXXXaaaabbbb") (by decide) (by decide)⟩

/-- C5, as stated: a source of 12 bytes with the magic `XXXX` ends before the
last byte of record 0 of the directory its header announces, and the call
fails with the invalid-magic error, which is not a read error. -/
theorem collect_short_record_bad_magic :
    ¬ badMagicHeader.length < 12 ∧
    0 < dirLengthOf badMagicHeader / 64 ∧
    badMagicHeader.length < dirOffsetOf badMagicHeader + 64 * (0 + 1) ∧
    (CollectPakFileEntries (File.opened badMagicHeader)).err
      = some (.invalidMagic (ascii "XXXX")) ∧
    (CollectError.invalidMagic (ascii "XXXX")).isReadError = false := by
  decide

/-- C5, amended: when the source ends before byte 12, or the header is read
with the magic `PACK` and the source ends before the last byte of some record
`i` below the entry count, `CollectPakFileEntries` fails with a read error and
returns no entries: nothing decoded before the short read is returned. -/
theorem collect_short_read (data : List Byte)
    (h : data.length < 12 ∨
      (magicOf data = PACK ∧ ∃ i, i < dirLengthOf data / 64 ∧
        data.length < dirOffsetOf data + 64 * (i + 1))) :
    (CollectPakFileEntries (File.opened data)).entries = [] ∧
    ∃ e, (CollectPakFileEntries (File.opened data)).err = some e ∧ e.isReadError = true := by
  by_cases hlen : data.length < 12
  · rw [collect_of_short data hlen]
    exact ⟨rfl, _, rfl, rfl⟩
  · rcases h with h | ⟨hm, i, hi, hlt⟩
    · exact absurd h hlen
    · rw [collect_of_header data (by omega) hm]
      have hf := collectLoop_of_gt (dirLengthOf data / 64) 0 ⟨data, dirOffsetOf data⟩ []
        (by omega) (by simp only; omega)
      exact ⟨hf.1, _, hf.2, rfl⟩

theorem collect_short_read_witness :
    ((archive130.take 100).length < 12 ∨
      (magicOf (archive130.take 100) = PACK ∧
        ∃ i, i < dirLengthOf (archive130.take 100) / 64 ∧
          (archive130.take 100).length < dirOffsetOf (archive130.take 100) + 64 * (i + 1))) ∧
    (CollectPakFileEntries (File.opened (archive130.take 100))).entries = [] ∧
    ∃ e, (CollectPakFileEntries (File.opened (archive130.take 100))).err = some e
      ∧ e.isReadError = true :=
  ⟨Or.inr ⟨by decide, 1, by decide, by decide⟩,
    collect_short_read (archive130.take 100) (Or.inr ⟨by decide, 1, by decide, by decide⟩)⟩

/-! ## The directory length and the bytes that are read -/

theorem le32_putLE32_append (n : Nat) (rest : List Byte) :
    le32 (putLE32 n ++ rest) = n % 4294967296 := by
  simp only [le32, putLE32, List.cons_append, List.nil_append, List.getD_cons_zero,
    List.getD_cons_succ, Fin.ofNat, Fin.val_mk]
  omega

theorem length_setDirLength (data : List Byte) (len : Nat) (h : 12 ≤ data.length) :
    (setDirLength data len).length = data.length := by
  simp [setDirLength, putLE32]
  omega

theorem magicOf_setDirLength (data : List Byte) (len : Nat) (h : 12 ≤ data.length) :
    magicOf (setDirLength data len) = magicOf data := by
  unfold magicOf setDirLength
  rw [List.append_assoc, List.take_append_of_le_length (by simp; omega), List.take_take]
  simp

theorem dirOffsetOf_setDirLength (data : List Byte) (len : Nat) (h : 12 ≤ data.length) :
    dirOffsetOf (setDirLength data len) = dirOffsetOf data := by
  unfold dirOffsetOf setDirLength le32
  have e : ∀ i, i < 4 →
      (List.drop 4 (List.take 8 data ++ putLE32 len ++ List.drop 12 data)).getD i 0
        = (List.drop 4 data).getD i 0 := by
    intro i hi
    simp only [List.getD_eq_getElem?_getD, List.getElem?_drop, List.append_assoc]
    rw [List.getElem?_append_left (by simp; omega), List.getElem?_take_of_lt (by omega)]
  rw [e 0 (by omega), e 1 (by omega), e 2 (by omega), e 3 (by omega)]

theorem dirLengthOf_setDirLength (data : List Byte) (len : Nat) (h : 12 ≤ data.length) :
    dirLengthOf (setDirLength data len) = len % 4294967296 := by
  unfold dirLengthOf setDirLength
  rw [List.append_assoc, List.drop_append_of_le_length (by simp; omega)]
  have : List.drop 8 (List.take 8 data) = [] := by
    apply List.eq_nil_of_length_eq_zero; simp
  rw [this, List.nil_append, le32_putLE32_append]

theorem drop_setDirLength (data : List Byte) (len k : Nat) (h : 12 ≤ data.length)
    (hk : 12 ≤ k) : (setDirLength data len).drop k = data.drop k := by
  unfold setDirLength
  have hl : (List.take 8 data ++ putLE32 len).length = 12 := by
    simp [putLE32]; omega
  rw [List.drop_append_eq_append_drop, hl]
  have : List.drop k (List.take 8 data ++ putLE32 len) = [] := by
    apply List.eq_nil_of_length_eq_zero; rw [List.length_drop, hl]; omega
  rw [this, List.nil_append, List.drop_drop]
  congr 1
  omega

theorem entryAt_setDirLength (data : List Byte) (len off i : Nat) (h : 12 ≤ data.length)
    (ho : 12 ≤ off) : entryAt (setDirLength data len) off i = entryAt data off i := by
  unfold entryAt recordAt
  rw [drop_setDirLength data len _ h (by omega)]

/-- The two results of `collectLoop` depend on the file only through its length,
its cursor and the records the loop decodes. -/
theorem collectLoop_congr (k : Nat) (f g : File) (hl : f.data.length = g.data.length)
    (hp : f.pos = g.pos)
    (he : ∀ j, j < k → entryAt f.data f.pos j = entryAt g.data g.pos j) :
    (collectLoop k 0 f []).entries = (collectLoop k 0 g []).entries ∧
    (collectLoop k 0 f []).err = (collectLoop k 0 g []).err := by
  by_cases hk : k = 0
  · subst hk; simp [collectLoop]
  · by_cases hle : f.pos + 64 * k ≤ f.data.length
    · rw [collectLoop_of_le k 0 f [] hle, collectLoop_of_le k 0 g [] (by omega)]
      refine ⟨?_, rfl⟩
      simp only [List.nil_append]
      apply List.map_congr_left
      intro j hj
      exact he j (List.mem_range.mp hj)
    · have hf := collectLoop_of_gt k 0 f [] (by omega) (by omega)
      have hg := collectLoop_of_gt k 0 g [] (by omega) (by omega)
      rw [hf.1, hf.2, hg.1, hg.2, hl, hp]
      exact ⟨rfl, rfl⟩

theorem magicOf_take (data : List Byte) (m : Nat) (hm : 12 ≤ m) :
    magicOf (data.take m) = magicOf data := by
  unfold magicOf
  rw [List.take_take]
  congr 1
  omega

theorem dirOffsetOf_take (data : List Byte) (m : Nat) (hm : 12 ≤ m) :
    dirOffsetOf (data.take m) = dirOffsetOf data := by
  unfold dirOffsetOf
  rw [List.drop_take, le32_take _ _ (by omega)]

theorem dirLengthOf_take (data : List Byte) (m : Nat) (hm : 12 ≤ m) :
    dirLengthOf (data.take m) = dirLengthOf data := by
  unfold dirLengthOf
  rw [List.drop_take, le32_take _ _ (by omega)]

theorem entryAt_take (data : List Byte) (m off j : Nat) (h : off + 64 * (j + 1) ≤ m) :
    entryAt (data.take m) off j = entryAt data off j := by
  unfold entryAt recordAt
  rw [List.drop_take, List.take_take]
  congr 3
  omega

/-- The bytes after the last record that is read do not matter: cutting the
source after them leaves both results as they are. -/
theorem collect_take (data : List Byte) :
    (CollectPakFileEntries (File.opened
        (data.take (max 12 (dirOffsetOf data + 64 * (dirLengthOf data / 64)))))).entries
      = (CollectPakFileEntries (File.opened data)).entries ∧
    (CollectPakFileEntries (File.opened
        (data.take (max 12 (dirOffsetOf data + 64 * (dirLengthOf data / 64)))))).err
      = (CollectPakFileEntries (File.opened data)).err := by
  generalize hm : max 12 (dirOffsetOf data + 64 * (dirLengthOf data / 64)) = m
  have hm12 : 12 ≤ m := by omega
  have hmo : dirOffsetOf data + 64 * (dirLengthOf data / 64) ≤ m := by omega
  by_cases hlen : data.length ≤ m
  · rw [List.take_of_length_le hlen]
    exact ⟨rfl, rfl⟩
  · have hl : (data.take m).length = m := by rw [List.length_take]; omega
    by_cases hmg : magicOf data = PACK
    · rw [collect_of_header data (by omega) hmg,
        collect_of_header (data.take m) (by omega) (by rw [magicOf_take data m hm12]; exact hmg),
        dirOffsetOf_take data m hm12, dirLengthOf_take data m hm12]
      rw [collectLoop_of_le _ 0 ⟨data, dirOffsetOf data⟩ [] (by simp only; omega),
        collectLoop_of_le _ 0 ⟨data.take m, dirOffsetOf data⟩ [] (by simp only; omega)]
      refine ⟨?_, rfl⟩
      simp only [List.nil_append]
      apply List.map_congr_left
      intro j hj
      have hj2 := List.mem_range.mp hj
      exact entryAt_take data m _ j (by omega)
    · rw [collect_of_bad_magic data (by omega) hmg,
        collect_of_bad_magic (data.take m) (by omega) (by rw [magicOf_take data m hm12]; exact hmg),
        magicOf_take data m hm12]
      exact ⟨rfl, rfl⟩

/-- C6, as stated: in an archive whose directory table starts at byte 0 the
record that is read holds the bytes of the length field, and replacing the
directory length 65 by 64 changes the name of the entry that is returned. -/
theorem collect_dirLength_overlap :
    12 ≤ overlapArchive.length ∧
    dirLengthOf overlapArchive = 65 ∧
    (CollectPakFileEntries (File.opened overlapArchive)).err = none ∧
    (CollectPakFileEntries (File.opened
        (setDirLength overlapArchive (64 * (dirLengthOf overlapArchive / 64))))).entries
      ≠ (CollectPakFileEntries (File.opened overlapArchive)).entries := by
  decide

/-- C6, amended: for an archive with a complete header whose directory table
does not overlap the length field (it starts at byte 12 or later, or holds no
record), replacing the directory length `L` by `64 * (L / 64)` leaves the
entries and the error as they are; and for every source the bytes after the
last of the `L / 64` records are not read: cutting the source there leaves the
entries and the error as they are. -/
theorem collect_dirLength_quotient (data : List Byte) (hlen : 12 ≤ data.length)
    (hd : 12 ≤ dirOffsetOf data ∨ dirLengthOf data / 64 = 0) :
    ((CollectPakFileEntries (File.opened
          (setDirLength data (64 * (dirLengthOf data / 64))))).entries
        = (CollectPakFileEntries (File.opened data)).entries ∧
      (CollectPakFileEntries (File.opened
          (setDirLength data (64 * (dirLengthOf data / 64))))).err
        = (CollectPakFileEntries (File.opened data)).err) ∧
    ((CollectPakFileEntries (File.opened
          (data.take (max 12 (dirOffsetOf data + 64 * (dirLengthOf data / 64)))))).entries
        = (CollectPakFileEntries (File.opened data)).entries ∧
      (CollectPakFileEntries (File.opened
          (data.take (max 12 (dirOffsetOf data + 64 * (dirLengthOf data / 64)))))).err
        = (CollectPakFileEntries (File.opened data)).err) := by
  refine ⟨?_, collect_take data⟩
  generalize hL : 64 * (dirLengthOf data / 64) = L
  have hlt := le32_lt (data.drop 8)
  have hLlt : L % 4294967296 = L := by
    apply Nat.mod_eq_of_lt
    unfold dirLengthOf at hL
    omega
  have hlen2 := length_setDirLength data L hlen
  have hq : L / 64 = dirLengthOf data / 64 := by omega
  by_cases hmg : magicOf data = PACK
  · rw [collect_of_header data hlen hmg,
      collect_of_header (setDirLength data L) (by omega)
        (by rw [magicOf_setDirLength data L hlen]; exact hmg),
      dirOffsetOf_setDirLength data L hlen, dirLengthOf_setDirLength data L hlen, hLlt, hq]
    rcases hd with hd | hd
    · apply collectLoop_congr
      · exact hlen2
      · rfl
      · intro j _
        exact entryAt_setDirLength data L _ j hlen hd
    · rw [hd]
      simp [collectLoop]
  · rw [collect_of_bad_magic data hlen hmg,
      collect_of_bad_magic (setDirLength data L) (by omega)
        (by rw [magicOf_setDirLength data L hlen]; exact hmg),
      magicOf_setDirLength data L hlen]
    exact ⟨rfl, rfl⟩

set_option maxRecDepth 100000 in
theorem collect_dirLength_quotient_witness :
    12 ≤ archive130.length ∧
    (12 ≤ dirOffsetOf archive130 ∨ dirLengthOf archive130 / 64 = 0) ∧
    dirLengthOf archive130 = 130 ∧
    (CollectPakFileEntries (File.opened archive130)).entries
      = [⟨ascii "a.txt", 140, 0⟩, ⟨ascii "b.txt", 140, 0⟩] ∧
    ((CollectPakFileEntries (File.opened
          (setDirLength archive130 (64 * (dirLengthOf archive130 / 64))))).entries
        = (CollectPakFileEntries (File.opened archive130)).entries ∧
      (CollectPakFileEntries (File.opened
          (setDirLength archive130 (64 * (dirLengthOf archive130 / 64))))).err
        = (CollectPakFileEntries (File.opened archive130)).err) ∧
    ((CollectPakFileEntries (File.opened
          (archive130.take
            (max 12 (dirOffsetOf archive130 + 64 * (dirLengthOf archive130 / 64)))))).entries
        = (CollectPakFileEntries (File.opened archive130)).entries ∧
      (CollectPakFileEntries (File.opened
          (archive130.take
            (max 12 (dirOffsetOf archive130 + 64 * (dirLengthOf archive130 / 64)))))).err
        = (CollectPakFileEntries (File.opened archive130)).err) :=
  ⟨by decide, Or.inl (by decide), by decide, by decide,
    collect_dirLength_quotient archive130 (by decide) (Or.inl (by decide))⟩

/-! ## Splitting and joining paths -/

theorem splitByte_ne_nil (c : Byte) (l : List Byte) : splitByte c l ≠ [] := by
  induction l with
  | nil => simp [splitByte]
  | cons b bs ih =>
    unfold splitByte
    split
    · simp
    · split <;> simp

theorem splitByte_cons_ne (c b : Byte) (bs : List Byte) (h : b ≠ c) :
    ∃ s ss, splitByte c bs = s :: ss ∧ splitByte c (b :: bs) = (b :: s) :: ss := by
  cases hs : splitByte c bs with
  | nil => exact absurd hs (splitByte_ne_nil c bs)
  | cons s ss =>
    refine ⟨s, ss, rfl, ?_⟩
    rw [splitByte, if_neg h, hs]

theorem splitByte_cons_eq (c : Byte) (bs : List Byte) :
    splitByte c (c :: bs) = [] :: splitByte c bs := by
  rw [splitByte, if_pos rfl]

theorem splitByte_not_mem (c : Byte) (l : List Byte) : ∀ s ∈ splitByte c l, c ∉ s := by
  induction l with
  | nil => simp [splitByte]
  | cons b bs ih =>
    by_cases hb : b = c
    · subst hb
      rw [splitByte_cons_eq]
      intro s hs
      rcases List.mem_cons.mp hs with h | h
      · subst h; simp
      · exact ih s h
    · obtain ⟨s, ss, h1, h2⟩ := splitByte_cons_ne c b bs hb
      rw [h2]
      rw [h1] at ih
      intro x hx
      rcases List.mem_cons.mp hx with h | h
      · subst h
        intro hc
        rcases List.mem_cons.mp hc with h3 | h3
        · exact hb h3.symm
        · exact ih s (List.mem_cons_self _ _) h3
      · exact ih x (List.mem_cons_of_mem _ h)

theorem joinWith_cons_cons (sep a b : List Byte) (l : List (List Byte)) :
    joinWith sep (a :: b :: l) = a ++ sep ++ joinWith sep (b :: l) := by
  simp [joinWith, List.intercalate, List.intersperse]

theorem joinWith_singleton (sep a : List Byte) : joinWith sep [a] = a := by
  simp [joinWith, List.intercalate, List.intersperse]

theorem joinWith_nil (sep : List Byte) : joinWith sep [] = [] := by
  simp [joinWith, List.intercalate, List.intersperse]

theorem joinWith_cons_of_ne_nil (sep a : List Byte) (l : List (List Byte)) (h : l ≠ []) :
    joinWith sep (a :: l) = a ++ sep ++ joinWith sep l := by
  cases l with
  | nil => exact absurd rfl h
  | cons b t => exact joinWith_cons_cons sep a b t

theorem joinWith_splitByte (c : Byte) (l : List Byte) :
    joinWith [c] (splitByte c l) = l := by
  induction l with
  | nil => simp [splitByte, joinWith_singleton]
  | cons b bs ih =>
    by_cases hb : b = c
    · subst hb
      rw [splitByte_cons_eq, joinWith_cons_of_ne_nil _ _ _ (splitByte_ne_nil _ _), ih]
      simp
    · obtain ⟨s, ss, h1, h2⟩ := splitByte_cons_ne c b bs hb
      rw [h2]
      rw [h1] at ih
      cases ss with
      | nil =>
        rw [joinWith_singleton] at ih ⊢
        rw [ih]
      | cons t ts =>
        rw [joinWith_cons_cons] at ih ⊢
        rw [← ih]
        simp

theorem splitByte_of_not_mem (c : Byte) (l : List Byte) (h : c ∉ l) : splitByte c l = [l] := by
  induction l with
  | nil => simp [splitByte]
  | cons b bs ih =>
    have hb : b ≠ c := fun e => h (by simp [e])
    have hbs : c ∉ bs := fun e => h (List.mem_cons_of_mem _ e)
    rw [splitByte, if_neg hb, ih hbs]

theorem splitByte_append_sep (c : Byte) (a b : List Byte) :
    splitByte c (a ++ c :: b) = splitByte c a ++ splitByte c b := by
  induction a with
  | nil => simp [splitByte]
  | cons x xs ih =>
    by_cases hx : x = c
    · subst hx
      rw [List.cons_append, splitByte_cons_eq, splitByte_cons_eq, ih]
      simp
    · obtain ⟨s, ss, h1, h2⟩ := splitByte_cons_ne c x xs hx
      rw [List.cons_append, splitByte, if_neg hx, ih, h1, h2]
      simp

theorem exists_last_sep (c : Byte) (p : List Byte) (h : c ∈ p) :
    ∃ a b, p = a ++ c :: b ∧ c ∉ b := by
  induction p with
  | nil => simp at h
  | cons x xs ih =>
    by_cases hx : c ∈ xs
    · obtain ⟨a, b, hab, hb⟩ := ih hx
      exact ⟨x :: a, b, by rw [hab]; simp, hb⟩
    · have : x = c := by
        rcases List.mem_cons.mp h with h1 | h1
        · exact h1.symm
        · exact absurd h1 hx
      subst this
      exact ⟨[], xs, rfl, hx⟩

theorem dirPathOf_append_sep (a b : List Byte) (hb : SEP ∉ b) :
    dirPathOf (a ++ SEP :: b) = a := by
  unfold dirPathOf
  rw [splitByte_append_sep, splitByte_of_not_mem SEP b hb, List.dropLast_concat,
    joinWith_splitByte]

theorem dirPathOf_of_not_mem (p : List Byte) (h : SEP ∉ p) : dirPathOf p = [] := by
  unfold dirPathOf
  rw [splitByte_of_not_mem SEP p h]
  simp [joinWith_nil]

/-! ## Cleaning a plain path -/

theorem takeWhile_append_sep (s t : List Byte) (hs : SEP ∉ s)
    (ht : t = [] ∨ t.head? = some SEP) :
    (s ++ t).takeWhile (fun b => b ≠ SEP) = s ∧ (s ++ t).dropWhile (fun b => b ≠ SEP) = t := by
  induction s with
  | nil =>
    rcases ht with ht | ht
    · subst ht; simp
    · cases t with
      | nil => simp
      | cons x xs =>
        have hx : x = SEP := by simpa using ht
        subst hx
        simp
  | cons x xs ih =>
    have hx : x ≠ SEP := fun e => hs (by simp [e])
    have hxs : SEP ∉ xs := fun e => hs (List.mem_cons_of_mem _ e)
    obtain ⟨h1, h2⟩ := ih hxs
    constructor
    · rw [List.cons_append, List.takeWhile_cons_of_pos (by simpa using hx), h1]
    · rw [List.cons_append, List.dropWhile_cons_of_pos (by simpa using hx), h2]

/-- One iteration of the loop copies a plain element to the buffer, after a
separator when the buffer needs one. -/
theorem cleanLoop_segment (rooted : Bool) (fuel : Nat) (s t out : List Byte) (dotdot : Nat)
    (hs : plainSegment s = true) (hsep : SEP ∉ s) (ht : t = [] ∨ t.head? = some SEP) :
    cleanLoop rooted (fuel + 1) (s ++ t) out dotdot =
      cleanLoop rooted fuel t
        ((if (rooted = true ∧ out.length ≠ 1) ∨ (¬ rooted = true ∧ out.length ≠ 0)
          then out ++ [SEP] else out) ++ s) dotdot := by
  simp only [plainSegment, decide_eq_true_eq] at hs
  obtain ⟨hne, hdot, hdotdot⟩ := hs
  cases s with
  | nil => exact absurd rfl hne
  | cons c s1 =>
    have hc : c ≠ SEP := fun e => hsep (by simp [e])
    have hs1 : SEP ∉ s1 := fun e => hsep (List.mem_cons_of_mem _ e)
    have h2 : ¬ (c = DOT ∧ (s1 ++ t = [] ∨ (s1 ++ t).head? = some SEP)) := by
      rintro ⟨hcd, h⟩
      cases s1 with
      | nil => exact hdot (by rw [hcd])
      | cons d s2 =>
        rcases h with h | h
        · simp at h
        · have : d = SEP := by simpa using h
          exact hs1 (by simp [this])
    have h3 : ¬ (c = DOT ∧ (s1 ++ t).head? = some DOT ∧
        ((s1 ++ t).tail = [] ∨ (s1 ++ t).tail.head? = some SEP)) := by
      rintro ⟨hcd, hd, h⟩
      cases s1 with
      | nil =>
        rcases ht with ht | ht
        · subst ht; simp at hd
        · rw [List.nil_append, ht] at hd
          exact absurd (Option.some.inj hd) (by decide)
      | cons d s2 =>
        have hdd : d = DOT := by simpa using hd
        cases s2 with
        | nil => exact hdotdot (by rw [hcd, hdd])
        | cons e s3 =>
          rcases h with h | h
          · simp at h
          · have : e = SEP := by simpa using h
            exact hs1 (by simp [this])
    have htd := takeWhile_append_sep (c :: s1) t hsep ht
    rw [List.cons_append] at htd
    rw [List.cons_append, cleanLoop, if_neg hc, if_neg h2, if_neg h3]
    simp only [htd.1, htd.2]

theorem joinWith_length_pos (sep : List Byte) (segs : List (List Byte)) (s : List Byte)
    (hs : s ≠ []) : 0 < (joinWith sep (s :: segs)).length := by
  cases segs with
  | nil =>
    rw [joinWith_singleton]
    exact List.length_pos.mpr hs
  | cons b l =>
    rw [joinWith_cons_cons]
    simp only [List.length_append]
    have := List.length_pos.mpr hs
    omega

/-- The loop copies a path of plain elements to the buffer unchanged -/
theorem cleanLoop_plain (rooted : Bool) (segs : List (List Byte)) (hne : segs ≠ [])
    (hp : ∀ s ∈ segs, plainSegment s = true ∧ SEP ∉ s) :
    ∀ (fuel : Nat) (out : List Byte) (dotdot : Nat),
      (joinWith [SEP] segs).length ≤ fuel →
      cleanLoop rooted fuel (joinWith [SEP] segs) out dotdot =
        (if (rooted = true ∧ out.length ≠ 1) ∨ (¬ rooted = true ∧ out.length ≠ 0)
          then out ++ [SEP] else out) ++ joinWith [SEP] segs := by
  induction segs with
  | nil => exact absurd rfl hne
  | cons s rest ih =>
    intro fuel out dotdot hfuel
    have hs := hp s (List.mem_cons_self _ _)
    have hsne : s ≠ [] := by
      have := hs.1
      simp only [plainSegment, decide_eq_true_eq] at this
      exact this.1
    have hslen : 0 < s.length := List.length_pos.mpr hsne
    cases rest with
    | nil =>
      rw [joinWith_singleton] at hfuel ⊢
      obtain ⟨f1, rfl⟩ : ∃ f1, fuel = f1 + 1 := ⟨fuel - 1, by omega⟩
      have := cleanLoop_segment rooted f1 s [] out dotdot hs.1 hs.2 (Or.inl rfl)
      rw [List.append_nil] at this
      rw [this]
      cases f1 <;> simp [cleanLoop]
    | cons s2 rest2 =>
      rw [joinWith_cons_cons] at hfuel ⊢
      simp only [List.length_append, List.length_singleton] at hfuel
      obtain ⟨f2, rfl⟩ : ∃ f2, fuel = f2 + 1 + 1 := ⟨fuel - 2, by omega⟩
      rw [List.append_assoc, cleanLoop_segment rooted (f2 + 1) s _ out dotdot hs.1 hs.2
        (Or.inr (by simp))]
      rw [List.singleton_append, cleanLoop, if_pos rfl]
      rw [ih (by simp) (fun x hx => hp x (List.mem_cons_of_mem _ hx)) f2 _ dotdot (by omega)]
      have hcond : (rooted = true ∧
          ((if (rooted = true ∧ out.length ≠ 1) ∨ (¬ rooted = true ∧ out.length ≠ 0)
            then out ++ [SEP] else out) ++ s).length ≠ 1) ∨
          (¬ rooted = true ∧
          ((if (rooted = true ∧ out.length ≠ 1) ∨ (¬ rooted = true ∧ out.length ≠ 0)
            then out ++ [SEP] else out) ++ s).length ≠ 0) := by
        by_cases hr : rooted = true
        · left
          refine ⟨hr, ?_⟩
          split
          · simp only [List.length_append, List.length_singleton]; omega
          · rename_i hcnd
            have : out.length = 1 := by
              by_contra hcon
              exact hcnd (Or.inl ⟨hr, hcon⟩)
            simp only [List.length_append]; omega
        · right
          refine ⟨hr, ?_⟩
          simp only [List.length_append]; omega
      rw [if_pos hcond]
      simp

theorem plainRel_segments (p : List Byte) (h : plainRel p = true) :
    ∀ s ∈ splitByte SEP p, plainSegment s = true ∧ SEP ∉ s := by
  intro s hs
  refine ⟨?_, splitByte_not_mem SEP p s hs⟩
  unfold plainRel at h
  exact List.all_eq_true.mp h s hs

theorem plainRel_ne_nil (p : List Byte) (h : plainRel p = true) : p ≠ [] := by
  intro hp
  subst hp
  revert h
  decide

theorem plainRel_head (p : List Byte) (h : plainRel p = true) : p.head? ≠ some SEP := by
  cases p with
  | nil => simp
  | cons c t =>
    intro hc
    have hc2 : c = SEP := by simpa using hc
    subst hc2
    unfold plainRel at h
    rw [splitByte_cons_eq] at h
    revert h
    simp [plainSegment]

theorem plainRel_append (a b : List Byte) (ha : plainRel a = true) (hb : plainRel b = true) :
    plainRel (a ++ SEP :: b) = true := by
  unfold plainRel at ha hb ⊢
  rw [splitByte_append_sep, List.all_append, ha, hb]
  rfl

/-- A plain relative path is left as it is by `filepath.Clean` -/
theorem Clean_plainRel (p : List Byte) (h : plainRel p = true) : Clean p = p := by
  have hne := plainRel_ne_nil p h
  have hhd := plainRel_head p h
  have hl := cleanLoop_plain false (splitByte SEP p) (splitByte_ne_nil SEP p)
    (plainRel_segments p h) p.length [] 0 (by rw [joinWith_splitByte])
  rw [joinWith_splitByte] at hl
  have hl2 : cleanLoop false p.length p [] 0 = p := by
    rw [hl]; simp
  unfold Clean
  rw [if_neg hne]
  simp only [hhd, decide_False, Bool.false_eq_true, if_false, hl2, hne]

/-- A separator followed by a plain relative path is left as it is -/
theorem Clean_rooted (p : List Byte) (h : plainRel p = true) : Clean (SEP :: p) = SEP :: p := by
  have hl := cleanLoop_plain true (splitByte SEP p) (splitByte_ne_nil SEP p)
    (plainRel_segments p h) (p.length + 1) [SEP] 1 (by rw [joinWith_splitByte]; omega)
  rw [joinWith_splitByte] at hl
  have hl2 : cleanLoop true (p.length + 1) p [SEP] 1 = SEP :: p := by
    rw [hl]; simp
  unfold Clean
  simp only [List.cons_ne_nil, if_false, List.head?_cons, decide_True, if_true, List.tail_cons,
    List.length_cons, hl2]

theorem Clean_plainPath (p : List Byte) (h : plainPath p = true) : Clean p = p := by
  unfold plainPath at h
  rcases Bool.or_eq_true _ _ ▸ h with h1 | h1
  · exact Clean_plainRel p h1
  · have h2 := Bool.and_eq_true _ _ ▸ h1
    cases p with
    | nil => simp at h2
    | cons c t =>
      have hc : c = SEP := by simpa using h2.1
      subst hc
      exact Clean_rooted t h2.2

theorem plainPath_append (a b : List Byte) (ha : plainPath a = true) (hb : plainRel b = true) :
    plainPath (a ++ SEP :: b) = true := by
  unfold plainPath at ha ⊢
  rcases Bool.or_eq_true _ _ ▸ ha with h1 | h1
  · rw [plainRel_append a b h1 hb]; rfl
  · have h2 := Bool.and_eq_true _ _ ▸ h1
    cases a with
    | nil => simp at h2
    | cons c t =>
      have hc : c = SEP := by simpa using h2.1
      subst hc
      have := plainRel_append t b h2.2 hb
      simp [this]

theorem plainPath_ne_nil (p : List Byte) (h : plainPath p = true) : p ≠ [] := by
  intro hp
  subst hp
  revert h
  decide

/-! ## The output tree -/

theorem mkdirChain_frame (fs : FS) (chain : List (List Byte)) (q : List Byte) :
    (mkdirChain fs chain).2 q = fs q ∨
      (q ∈ chain ∧ fs q = none ∧ (mkdirChain fs chain).2 q = some .dir) := by
  induction chain with
  | nil => left; rfl
  | cons p parents ih =>
    have ih2 : (mkdirChain fs parents).2 q = fs q ∨
        (q ∈ p :: parents ∧ fs q = none ∧ (mkdirChain fs parents).2 q = some .dir) := by
      rcases ih with h | ⟨h1, h2, h3⟩
      · exact Or.inl h
      · exact Or.inr ⟨List.mem_cons_of_mem _ h1, h2, h3⟩
    unfold mkdirChain
    by_cases hn : NUL ∈ p
    · rw [if_pos hn]
      rcases hr : mkdirChain fs parents with ⟨e, fs1⟩
      rw [hr] at ih2
      cases e <;> exact ih2
    · rw [if_neg hn]
      by_cases ha : alwaysDir p = true
      · rw [if_pos ha]; left; rfl
      · rw [if_neg ha]
        cases hp : fs p with
        | some n =>
          cases n with
          | dir => left; rfl
          | file c => left; rfl
        | none =>
          rcases hr : mkdirChain fs parents with ⟨e, fs1⟩
          rw [hr] at ih2
          cases e with
          | some e => exact ih2
          | none =>
            simp only
            by_cases hq : q = p
            · subst hq
              right
              exact ⟨List.mem_cons_self _ _, hp, by simp [FS.set]⟩
            · simp only [FS.set, if_neg hq]
              exact ih2

theorem mkdirChain_ok (fs : FS) (chain : List (List Byte))
    (h : ∀ q ∈ chain, NUL ∉ q ∧ ∀ c, fs q ≠ some (.file c)) :
    (mkdirChain fs chain).1 = none := by
  induction chain with
  | nil => rfl
  | cons p parents ih =>
    have hp := h p (List.mem_cons_self _ _)
    have ih2 := ih (fun q hq => h q (List.mem_cons_of_mem _ hq))
    unfold mkdirChain
    rw [if_neg hp.1]
    by_cases ha : alwaysDir p = true
    · rw [if_pos ha]
    · rw [if_neg ha]
      cases hfp : fs p with
      | some n =>
        cases n with
        | dir => rfl
        | file c => exact absurd hfp (hp.2 c)
      | none =>
        rcases hr : mkdirChain fs parents with ⟨e, fs1⟩
        rw [hr] at ih2
        simp only at ih2
        subst ih2
        rfl

theorem mkdirChain_head (fs : FS) (p : List Byte) (parents : List (List Byte))
    (h : (mkdirChain fs (p :: parents)).1 = none) :
    alwaysDir p = true ∨ (mkdirChain fs (p :: parents)).2 p = some .dir := by
  by_cases ha : alwaysDir p = true
  · exact Or.inl ha
  · right
    unfold mkdirChain at h ⊢
    by_cases hn : NUL ∈ p
    · rw [if_pos hn] at h
      rcases hr : mkdirChain fs parents with ⟨e, fs1⟩
      rw [hr] at h
      cases e <;> simp at h
    · rw [if_neg hn, if_neg ha] at h ⊢
      cases hfp : fs p with
      | some n =>
        cases n with
        | dir => simpa using hfp
        | file c => rw [hfp] at h; simp at h
      | none =>
        rw [hfp] at h
        rcases hr : mkdirChain fs parents with ⟨e, fs1⟩
        rw [hr] at h
        cases e with
        | some e => simp at h
        | none => simp [FS.set]

theorem dirChain_head (p : List Byte) (h : p ≠ []) : ∃ t, dirChain p = p :: t := by
  unfold dirChain
  obtain ⟨m, hm⟩ : ∃ m, (splitByte SEP p).length = m + 1 :=
    ⟨(splitByte SEP p).length - 1, by
      have := List.length_pos.mpr (splitByte_ne_nil SEP p); omega⟩
  rw [hm, List.range_succ, List.reverse_append, List.reverse_singleton, List.singleton_append,
    List.map_cons, ← hm, List.take_length, joinWith_splitByte,
    List.filter_cons_of_pos (by simpa using h)]
  exact ⟨_, rfl⟩

theorem joinWith_take_initial (sep : List Byte) (l : List (List Byte)) (k : Nat) :
    joinWith sep (l.take k) <+: joinWith sep l := by
  induction l generalizing k with
  | nil => simp
  | cons a t ih =>
    cases k with
    | zero => simp [joinWith_nil]
    | succ k =>
      rw [List.take_succ_cons]
      cases t with
      | nil => simp
      | cons b t2 =>
        cases k with
        | zero =>
          rw [List.take_zero, joinWith_singleton, joinWith_cons_cons, List.append_assoc]
          exact List.prefix_append _ _
        | succ k2 =>
          rw [List.take_succ_cons, joinWith_cons_cons, joinWith_cons_cons]
          have := ih (k2 + 1)
          rw [List.take_succ_cons] at this
          exact (List.prefix_append_right_inj _).mpr this

theorem dirChain_initial (p q : List Byte) (h : q ∈ dirChain p) : q <+: p := by
  unfold dirChain at h
  have h1 := (List.mem_filter.mp h).1
  obtain ⟨k, _, hk⟩ := List.mem_map.mp h1
  rw [← hk]
  have := joinWith_take_initial [SEP] (splitByte SEP p) (k + 1)
  rwa [joinWith_splitByte] at this

theorem dirPathOf_initial (p : List Byte) : dirPathOf p <+: p := by
  unfold dirPathOf
  have := joinWith_take_initial [SEP] (splitByte SEP p) ((splitByte SEP p).length - 1)
  rwa [joinWith_splitByte, ← List.dropLast_eq_take] at this

theorem not_mem_of_initial (c : Byte) (q p : List Byte) (h : q <+: p) (hc : c ∉ p) : c ∉ q :=
  fun hq => hc (h.subset hq)

theorem MkdirAll_frame (fs : FS) (p q : List Byte) :
    (MkdirAll fs p).2 q = fs q ∨
      (q ∈ dirChain p ∧ fs q = none ∧ (MkdirAll fs p).2 q = some .dir) := by
  unfold MkdirAll
  by_cases hp : p = []
  · rw [if_pos hp]; left; rfl
  · rw [if_neg hp]; exact mkdirChain_frame fs (dirChain p) q

theorem MkdirAll_ok (fs : FS) (p : List Byte) (hp : p ≠ [])
    (h : ∀ q ∈ dirChain p, NUL ∉ q ∧ ∀ c, fs q ≠ some (.file c)) :
    (MkdirAll fs p).1 = none ∧
      (alwaysDir p = true ∨ (MkdirAll fs p).2 p = some .dir) := by
  unfold MkdirAll
  rw [if_neg hp]
  have h1 := mkdirChain_ok fs (dirChain p) h
  obtain ⟨t, ht⟩ := dirChain_head p hp
  rw [ht] at h1 ⊢
  exact ⟨h1, mkdirChain_head fs p t h1⟩

theorem WriteFile_eq (fs fs2 : FS) (name data : List Byte)
    (h : WriteFile fs name data = .ok fs2) : fs2 = fs.set name (.file data) := by
  unfold WriteFile at h
  split at h
  · simp at h
  · split at h
    · simp at h
    · split at h
      · simp at h
      · split at h
        · simp at h
        · split at h
          · injection h with h; exact h.symm
          · split at h
            · injection h with h; exact h.symm
            · simp at h
            · simp at h

theorem WriteFile_ok (fs : FS) (name data : List Byte) (hne : name ≠ []) (hnul : NUL ∉ name)
    (halways : alwaysDir name = false) (hdir : fs name ≠ some .dir)
    (hparent : dirPathOf name = [] ∨ alwaysDir (dirPathOf name) = true ∨
      fs (dirPathOf name) = some .dir) :
    WriteFile fs name data = .ok (fs.set name (.file data)) := by
  unfold WriteFile
  rw [if_neg hne, if_neg hnul, if_neg (by simp [halways])]
  split
  · rename_i h; exact absurd h hdir
  · by_cases hd : dirPathOf name = [] ∨ alwaysDir (dirPathOf name) = true
    · rw [if_pos hd]
    · rw [if_neg hd]
      rcases hparent with hp | hp | hp
      · exact absurd (Or.inl hp) hd
      · exact absurd (Or.inr hp) hd
      · rw [hp]

theorem dirPathOf_length_lt (p : List Byte) (h : p ≠ []) :
    (dirPathOf p).length < p.length := by
  by_cases hs : SEP ∈ p
  · obtain ⟨a, b, hab, hb⟩ := exists_last_sep SEP p hs
    rw [hab, dirPathOf_append_sep a b hb]
    simp
  · rw [dirPathOf_of_not_mem p hs]
    exact List.length_pos.mpr h

theorem not_mem_ancestorsOf_self (p : List Byte) (h : p ≠ []) : p ∉ ancestorsOf p := by
  intro hm
  have h1 := (dirChain_initial _ _ hm).length_le
  have h2 := dirPathOf_length_lt p h
  omega

theorem seek_ofNat (f : File) (n : Nat) : f.seek (Int.ofNat n) = .ok ⟨f.data, n⟩ := by
  unfold File.seek
  have : ¬ (Int.ofNat n < 0) := by simp
  rw [if_neg this]
  rfl

theorem read_of_le (data : List Byte) (off len : Nat) (h : off + len ≤ data.length) :
    ∃ f2, (File.mk data off).read len = (.ok ((data.drop off).take len), f2) ∧
      f2.data = data := by
  unfold File.read
  by_cases hl : len = 0
  · subst hl
    exact ⟨⟨data, off⟩, by simp, rfl⟩
  · rw [if_neg hl]
    have hlen : ((data.drop off).take len).length = len := by
      rw [List.length_take, List.length_drop]; omega
    have hne : (data.drop off).take len ≠ [] := by
      intro hc; rw [hc] at hlen; simp at hlen; omega
    simp only [hne, if_false]
    exact ⟨_, rfl, rfl⟩

theorem read_data (f : File) (n : Nat) : (f.read n).2.data = f.data := by
  unfold File.read
  split
  · rfl
  · simp only
    split <;> rfl

theorem extract_file_data (flags : Flags) (f : File) (e : PakFileEntry) (fs : FS) :
    (ExtractPakFileEntry flags f e fs).file.data = f.data := by
  have hr := read_data ⟨f.data, e.Offset⟩ e.Length
  unfold ExtractPakFileEntry
  rw [seek_ofNat]
  simp only
  rcases hread : (File.mk f.data e.Offset).read e.Length with ⟨res, f2⟩
  rw [hread] at hr
  simp only at hr
  cases res with
  | error er => exact hr
  | ok got =>
    simp only
    split
    · split
      · exact hr
      · split <;> exact hr
    · split <;> exact hr

/-! ## One extraction -/

/-- What one extraction may change in the output tree: a missing directory
above the destination becomes a directory, and the destination becomes a file -/
theorem extract_frame (flags : Flags) (f : File) (e : PakFileEntry) (fs : FS) (q : List Byte) :
    (ExtractPakFileEntry flags f e fs).fs q = fs q ∨
    (q ∈ ancestorsOf (extractPathOf flags e) ∧ fs q = none ∧
      (ExtractPakFileEntry flags f e fs).fs q = some .dir) ∨
    (q = extractPathOf flags e ∧ ∃ d, (ExtractPakFileEntry flags f e fs).fs q = some (.file d)) := by
  unfold ExtractPakFileEntry
  rw [seek_ofNat]
  simp only
  rcases (File.mk f.data e.Offset).read e.Length with ⟨res, f2⟩
  cases res with
  | error er => left; rfl
  | ok got =>
    simp only
    have hmk := MkdirAll_frame fs (dirPathOf (extractPathOf flags e)) q
    split
    · rcases hm : MkdirAll fs (dirPathOf (extractPathOf flags e)) with ⟨me, fs1⟩
      rw [hm] at hmk
      simp only at hmk
      have hmk2 : fs1 q = fs q ∨
          (q ∈ ancestorsOf (extractPathOf flags e) ∧ fs q = none ∧ fs1 q = some .dir) := hmk
      cases me with
      | some er =>
        simp only
        rcases hmk2 with h | h
        · exact Or.inl h
        · exact Or.inr (Or.inl h)
      | none =>
        simp only
        cases hw : WriteFile fs1 (extractPathOf flags e)
            (bufferOf e got) with
        | error er =>
          simp only
          rcases hmk2 with h | h
          · exact Or.inl h
          · exact Or.inr (Or.inl h)
        | ok fs2 =>
          simp only
          have := WriteFile_eq _ _ _ _ hw
          subst this
          by_cases hq : q = extractPathOf flags e
          · right; right
            exact ⟨hq, bufferOf e got, by simp [FS.set, hq]⟩
          · simp only [FS.set, if_neg hq]
            rcases hmk2 with h | h
            · exact Or.inl h
            · exact Or.inr (Or.inl h)
    · cases hw : WriteFile fs (extractPathOf flags e)
          (bufferOf e got) with
      | error er => left; rfl
      | ok fs2 =>
        simp only
        have := WriteFile_eq _ _ _ _ hw
        subst this
        by_cases hq : q = extractPathOf flags e
        · right; right
          exact ⟨hq, bufferOf e got, by simp [FS.set, hq]⟩
        · left
          simp only [FS.set, if_neg hq]

/-- An extraction whose range lies inside the archive succeeds and writes the
payload, when the tree has no directory at the destination and no file above it -/
theorem extract_ok (flags : Flags) (f : File) (e : PakFileEntry) (fs : FS)
    (hrange : e.Offset + e.Length ≤ f.data.length)
    (hne : extractPathOf flags e ≠ []) (hnul : NUL ∉ extractPathOf flags e)
    (halways : alwaysDir (extractPathOf flags e) = false)
    (hdir : fs (extractPathOf flags e) ≠ some .dir)
    (hanc : ∀ q ∈ ancestorsOf (extractPathOf flags e), ∀ c, fs q ≠ some (.file c)) :
    (ExtractPakFileEntry flags f e fs).err = none ∧
    (ExtractPakFileEntry flags f e fs).fs (extractPathOf flags e)
      = some (.file (payloadOf f.data e)) := by
  obtain ⟨f2, hread, _⟩ := read_of_le f.data e.Offset e.Length hrange
  have hlen : ((f.data.drop e.Offset).take e.Length).length = e.Length := by
    rw [List.length_take, List.length_drop]; omega
  unfold ExtractPakFileEntry
  rw [seek_ofNat]
  simp only [hread, bufferOf, hlen, Nat.sub_self, List.replicate_zero, List.append_nil]
  by_cases hd : dirPathOf (extractPathOf flags e) = []
  · have hnn : ¬ (dirPathOf (extractPathOf flags e) ≠ []) := by simpa using hd
    rw [if_neg hnn]
    rw [WriteFile_ok fs _ _ hne hnul halways hdir (Or.inl hd)]
    simp [FS.set, payloadOf]
  · rw [if_pos hd]
    have hch : ∀ q ∈ dirChain (dirPathOf (extractPathOf flags e)),
        NUL ∉ q ∧ ∀ c, fs q ≠ some (.file c) := by
      intro q hq
      refine ⟨?_, hanc q hq⟩
      exact not_mem_of_initial NUL q _
        ((dirChain_initial _ _ hq).trans (dirPathOf_initial _)) hnul
    obtain ⟨hm1, hm2⟩ := MkdirAll_ok fs _ hd hch
    rcases hm : MkdirAll fs (dirPathOf (extractPathOf flags e)) with ⟨me, fs1⟩
    rw [hm] at hm1 hm2
    simp only at hm1 hm2
    subst hm1
    simp only
    have hfr := MkdirAll_frame fs (dirPathOf (extractPathOf flags e)) (extractPathOf flags e)
    rw [hm] at hfr
    simp only at hfr
    have hdir1 : fs1 (extractPathOf flags e) ≠ some .dir := by
      rcases hfr with h | ⟨h, _, _⟩
      · rw [h]; exact hdir
      · exact absurd h (not_mem_ancestorsOf_self _ hne)
    rw [WriteFile_ok fs1 _ _ hne hnul halways hdir1 (Or.inr hm2)]
    simp [FS.set, payloadOf]

/-! ## The loop of main -/

/-- A file of the tree stays as it is while the entries extracted have other
destinations -/
theorem extractAll_keeps (flags : Flags) (es : List PakFileEntry) :
    ∀ (f : File) (fs : FS) (p c : List Byte), fs p = some (.file c) →
      (∀ e ∈ es, extractPathOf flags e ≠ p) →
      (extractAll flags f es fs).2 p = some (.file c) := by
  induction es with
  | nil => intro f fs p c h _; exact h
  | cons e rest ih =>
    intro f fs p c h hne
    rw [extractAll]
    apply ih
    · rcases extract_frame flags f e fs p with h1 | ⟨_, h1, _⟩ | ⟨h1, _⟩
      · rw [h1]; exact h
      · rw [h1] at h; simp at h
      · exact absurd h1.symm (hne e (List.mem_cons_self _ _))
    · intro x hx
      exact hne x (List.mem_cons_of_mem _ hx)

theorem extractAll_roundtrip (flags : Flags) (data : List Byte) (es : List PakFileEntry) :
    ∀ (f : File) (fs : FS), f.data = data →
      (∀ e ∈ es, extractPathOf flags e ≠ [] ∧ NUL ∉ extractPathOf flags e ∧
        alwaysDir (extractPathOf flags e) = false) →
      (es.map (extractPathOf flags)).Nodup →
      (∀ a ∈ es, ∀ b ∈ es, extractPathOf flags a ∉ ancestorsOf (extractPathOf flags b)) →
      (∀ e ∈ es, e.Offset + e.Length ≤ data.length) →
      (∀ e ∈ es, fs (extractPathOf flags e) ≠ some .dir ∧
        ∀ q ∈ ancestorsOf (extractPathOf flags e), ∀ c, fs q ≠ some (.file c)) →
      ∀ e ∈ es, (extractAll flags f es fs).2 (extractPathOf flags e)
        = some (.file (payloadOf data e)) := by
  induction es with
  | nil => intro f fs _ _ _ _ _ _ e he; simp at he
  | cons e0 rest ih =>
    intro f fs hf hvalid hnodup hpre hrange hfs e he
    have h0 := List.mem_cons_self e0 rest
    have hok := extract_ok flags f e0 fs (by rw [hf]; exact hrange e0 h0)
      (hvalid e0 h0).1 (hvalid e0 h0).2.1 (hvalid e0 h0).2.2 (hfs e0 h0).1 (hfs e0 h0).2
    rw [hf] at hok
    rw [List.map_cons, List.nodup_cons] at hnodup
    rw [extractAll]
    rcases List.mem_cons.mp he with heq | hin
    · subst heq
      apply extractAll_keeps flags rest _ _ _ _ hok.2
      intro x hx hxe
      exact hnodup.1 (hxe ▸ List.mem_map_of_mem _ hx)
    · apply ih _ _ (by rw [extract_file_data]; exact hf)
        (fun x hx => hvalid x (List.mem_cons_of_mem _ hx)) hnodup.2
        (fun a ha b hb => hpre a (List.mem_cons_of_mem _ ha) b (List.mem_cons_of_mem _ hb))
        (fun x hx => hrange x (List.mem_cons_of_mem _ hx)) _ e hin
      intro x hx
      have hxm := List.mem_cons_of_mem e0 hx
      have hne : extractPathOf flags x ≠ extractPathOf flags e0 := by
        intro hc
        exact hnodup.1 (hc ▸ List.mem_map_of_mem _ hx)
      constructor
      · rcases extract_frame flags f e0 fs (extractPathOf flags x) with h1 | ⟨h1, _, _⟩ | ⟨h1, _⟩
        · rw [h1]; exact (hfs x hxm).1
        · exact absurd h1 (hpre x hxm e0 h0)
        · exact absurd h1 hne
      · intro q hq c
        rcases extract_frame flags f e0 fs q with h1 | ⟨_, _, h1⟩ | ⟨h1, _⟩
        · rw [h1]; exact (hfs x hxm).2 q hq c
        · rw [h1]; simp
        · rw [h1] at hq
          exact absurd hq (hpre e0 h0 x hxm)

theorem readFull_data (f : File) (n : Nat) : (readFull f n).2.data = f.data := by
  unfold readFull
  simp only
  split
  · rfl
  · split <;> rfl

theorem collectLoop_file_data (k : Nat) :
    ∀ (i : Nat) (f : File) (acc : List PakFileEntry),
      (collectLoop k i f acc).file.data = f.data := by
  induction k with
  | zero => intro i f acc; rfl
  | succ k ih =>
    intro i f acc
    have hr := readFull_data f directorySize
    rw [collectLoop]
    rcases hread : readFull f directorySize with ⟨res, f1⟩
    rw [hread] at hr
    cases res with
    | error er => exact hr
    | ok bs =>
      simp only
      rw [ih]
      exact hr

theorem collect_file_data (f : File) : (CollectPakFileEntries f).file.data = f.data := by
  have hr := readFull_data f headerSize
  unfold CollectPakFileEntries
  rcases hread : readFull f headerSize with ⟨res, f1⟩
  rw [hread] at hr
  cases res with
  | error er => exact hr
  | ok bs =>
    simp only
    split
    · exact hr
    · rw [seek_ofNat]
      simp only
      rw [collectLoop_file_data]
      exact hr

/-! ## Claims about the extractor -/

set_option maxRecDepth 100000 in
/-- C7, as stated: the names `a` and `./a` are distinct, neither is a directory
prefix of the other and both ranges lie inside the archive, yet both entries
are written to the one path `out/a`, which ends with the payload of the second
entry and not with that of the first. -/
theorem roundtrip_distinct_names_collide :
    (CollectPakFileEntries (File.opened twoNamesArchive)).err = none ∧
    (CollectPakFileEntries (File.opened twoNamesArchive)).entries
      = [⟨ascii "a", 140, 1⟩, ⟨ascii "./a", 141, 1⟩] ∧
    ascii "a" ≠ ascii "./a" ∧
    141 + 1 ≤ twoNamesArchive.length ∧
    extractPathOf ⟨ascii "out", false⟩ ⟨ascii "a", 140, 1⟩ = ascii "out/a" ∧
    payloadOf twoNamesArchive ⟨ascii "a", 140, 1⟩ = ascii "1" ∧
    main ⟨ascii "out", false⟩ twoNamesArchive FS.empty (ascii "out/a")
      = some (.file (ascii "2")) := by
  decide

/-- C7, amended: when `CollectPakFileEntries` succeeds, the destination paths
of the entries (the output directory joined with the names) are not empty,
hold no NUL byte, are not directories that always exist (`.`, `/`, or a path
of `..` elements), are pairwise distinct and none is a directory above
another, the ranges of the entries lie inside the archive, and the output tree
has no directory at a destination and no file at a directory above one, then
after `main` every destination is a file whose content is the bytes of the
archive in the range of its entry. -/
theorem main_roundtrip (flags : Flags) (data : List Byte) (fs : FS)
    (hok : (CollectPakFileEntries (File.opened data)).err = none)
    (hvalid : ∀ e ∈ (CollectPakFileEntries (File.opened data)).entries,
      extractPathOf flags e ≠ [] ∧ NUL ∉ extractPathOf flags e ∧
      alwaysDir (extractPathOf flags e) = false)
    (hdistinct :
      ((CollectPakFileEntries (File.opened data)).entries.map (extractPathOf flags)).Nodup)
    (habove : ∀ a ∈ (CollectPakFileEntries (File.opened data)).entries,
      ∀ b ∈ (CollectPakFileEntries (File.opened data)).entries,
        extractPathOf flags a ∉ ancestorsOf (extractPathOf flags b))
    (hrange : ∀ e ∈ (CollectPakFileEntries (File.opened data)).entries,
      e.Offset + e.Length ≤ data.length)
    (htree : ∀ e ∈ (CollectPakFileEntries (File.opened data)).entries,
      fs (extractPathOf flags e) ≠ some .dir ∧
      ∀ q ∈ ancestorsOf (extractPathOf flags e), fs q = none ∨ fs q = some .dir) :
    ∀ e ∈ (CollectPakFileEntries (File.opened data)).entries,
      main flags data fs (extractPathOf flags e) = some (.file (payloadOf data e)) := by
  intro e he
  unfold main
  rw [if_neg (by simp [hok])]
  apply extractAll_roundtrip flags data _ _ fs (collect_file_data _) hvalid hdistinct habove
    hrange _ e he
  intro x hx
  refine ⟨(htree x hx).1, ?_⟩
  intro q hq c
  rcases (htree x hx).2 q hq with h | h <;> rw [h] <;> simp

set_option maxRecDepth 100000 in
theorem main_roundtrip_witness :
    (CollectPakFileEntries (File.opened helloArchive)).entries = [⟨ascii "hello.txt", 76, 5⟩] ∧
    extractPathOf ⟨ascii "out", false⟩ ⟨ascii "hello.txt", 76, 5⟩ = ascii "out/hello.txt" ∧
    payloadOf helloArchive ⟨ascii "hello.txt", 76, 5⟩ = ascii "world" ∧
    ∀ e ∈ (CollectPakFileEntries (File.opened helloArchive)).entries,
      main ⟨ascii "out", false⟩ helloArchive FS.empty (extractPathOf ⟨ascii "out", false⟩ e)
        = some (.file (payloadOf helloArchive e)) :=
  ⟨by decide, by decide, by decide,
    main_roundtrip ⟨ascii "out", false⟩ helloArchive FS.empty (by decide) (by decide)
      (by decide) (by decide) (by decide) (by decide)⟩

/-- C8, at the failing input: the source has 10 bytes and the entry asks for 10
bytes from offset 5. The one `Read` returns the 5 bytes that are there and no
error, the call succeeds, and the file written holds those 5 bytes followed by
5 zero bytes. -/
theorem extract_short_read_writes_file :
    (ascii "0123456789").length < 5 + 10 ∧
    (ExtractPakFileEntry ⟨ascii "out", false⟩ (File.opened (ascii "0123456789"))
      ⟨ascii "f", 5, 10⟩ FS.empty).err = none ∧
    (ExtractPakFileEntry ⟨ascii "out", false⟩ (File.opened (ascii "0123456789"))
      ⟨ascii "f", 5, 10⟩ FS.empty).fs (ascii "out/f")
      = some (.file (ascii "56789" ++ [0, 0, 0, 0, 0])) := by
  decide

/-- C9, as stated: the name `a//b` under the root `out` gives `out/a/b`, not the
root, a separator and the name unchanged; and with the empty root the name
`./a` gives `a`. -/
theorem extractPath_not_verbatim :
    extractPathOf ⟨ascii "out", false⟩ ⟨ascii "a//b", 0, 0⟩ = ascii "out/a/b" ∧
    extractPathOf ⟨ascii "out", false⟩ ⟨ascii "a//b", 0, 0⟩
      ≠ ascii "out" ++ SEP :: ascii "a//b" ∧
    extractPathOf ⟨[], false⟩ ⟨ascii "./a", 0, 0⟩ = ascii "a" ∧
    extractPathOf ⟨[], false⟩ ⟨ascii "./a", 0, 0⟩ ≠ ascii "./a" := by
  decide

/-- C9, amended: when the name is a plain relative path (its elements are not
empty, not `.` and not `..`) and the output root is empty or a plain path, the
destination path is the name unchanged for the empty root, and otherwise the
root, one separator and the name unchanged. -/
theorem extractPath_plain (flags : Flags) (entry : PakFileEntry)
    (hroot : flags.OutputDir = [] ∨ plainPath flags.OutputDir = true)
    (hname : plainRel entry.Name = true) :
    extractPathOf flags entry =
      if flags.OutputDir = [] then entry.Name else flags.OutputDir ++ SEP :: entry.Name := by
  have hnn := plainRel_ne_nil entry.Name hname
  unfold extractPathOf
  by_cases hr : flags.OutputDir = []
  · rw [if_pos hr, hr]
    simp only [filepathJoin, ne_eq, not_true_eq_false, if_false, hnn, not_false_eq_true, if_true]
    rw [joinWith_singleton]
    exact Clean_plainRel _ hname
  · rw [if_neg hr]
    have hp : plainPath flags.OutputDir = true := by
      rcases hroot with h | h
      · exact absurd h hr
      · exact h
    simp only [filepathJoin, ne_eq, hr, not_false_eq_true, if_true]
    rw [joinWith_cons_cons, joinWith_singleton, List.append_assoc, List.singleton_append]
    exact Clean_plainPath _ (plainPath_append _ _ hp hname)

theorem extractPath_plain_witness :
    ((⟨ascii "out", false⟩ : Flags).OutputDir = [] ∨
      plainPath (⟨ascii "out", false⟩ : Flags).OutputDir = true) ∧
    plainRel (⟨ascii "textures/wall.png", 0, 0⟩ : PakFileEntry).Name = true ∧
    extractPathOf ⟨ascii "out", false⟩ ⟨ascii "textures/wall.png", 0, 0⟩
      = ascii "out/textures/wall.png" ∧
    extractPathOf ⟨ascii "out", false⟩ ⟨ascii "textures/wall.png", 0, 0⟩ =
      if (⟨ascii "out", false⟩ : Flags).OutputDir = []
      then (⟨ascii "textures/wall.png", 0, 0⟩ : PakFileEntry).Name
      else (⟨ascii "out", false⟩ : Flags).OutputDir
        ++ SEP :: (⟨ascii "textures/wall.png", 0, 0⟩ : PakFileEntry).Name :=
  ⟨Or.inr (by decide), by decide, by decide,
    extractPath_plain ⟨ascii "out", false⟩ ⟨ascii "textures/wall.png", 0, 0⟩
      (Or.inr (by decide)) (by decide)⟩

theorem splitByte_joinWith (c : Byte) (segs : List (List Byte)) (hne : segs ≠ [])
    (h : ∀ s ∈ segs, c ∉ s) : splitByte c (joinWith [c] segs) = segs := by
  induction segs with
  | nil => exact absurd rfl hne
  | cons a rest ih =>
    cases rest with
    | nil =>
      rw [joinWith_singleton]
      exact splitByte_of_not_mem c a (h a (List.mem_cons_self _ _))
    | cons b rest2 =>
      rw [joinWith_cons_cons, List.append_assoc, List.singleton_append, splitByte_append_sep,
        splitByte_of_not_mem c a (h a (List.mem_cons_self _ _)),
        ih (by simp) (fun x hx => h x (List.mem_cons_of_mem _ hx))]
      rfl

/-- Below a directory that always exists, the shorter members of a chain are
directories that always exist, or the empty path -/
theorem alwaysDir_take (segs : List (List Byte)) (hne : segs ≠ [])
    (hsep : ∀ s ∈ segs, SEP ∉ s) (k1 k2 : Nat) (hk : k2 < k1)
    (ha : alwaysDir (joinWith [SEP] (segs.take (k1 + 1))) = true) :
    alwaysDir (joinWith [SEP] (segs.take (k2 + 1))) = true ∨
      joinWith [SEP] (segs.take (k2 + 1)) = [] := by
  have hne1 : segs.take (k1 + 1) ≠ [] := by
    cases segs with
    | nil => exact absurd rfl hne
    | cons a t => simp
  have hne2 : segs.take (k2 + 1) ≠ [] := by
    cases segs with
    | nil => exact absurd rfl hne
    | cons a t => simp
  have hs1 := splitByte_joinWith SEP (segs.take (k1 + 1)) hne1
    (fun s hs => hsep s (List.mem_of_mem_take hs))
  have hs2 := splitByte_joinWith SEP (segs.take (k2 + 1)) hne2
    (fun s hs => hsep s (List.mem_of_mem_take hs))
  have ht : segs.take (k2 + 1) = (segs.take (k1 + 1)).take (k2 + 1) := by
    rw [List.take_take]
    congr 1
    omega
  unfold alwaysDir at ha
  simp only [Bool.or_eq_true, beq_iff_eq] at ha
  rcases ha with (ha | ha) | ha
  · rw [ha] at hs1
    have h1 : segs.take (k1 + 1) = [[DOT]] := by rw [← hs1]; decide
    rw [ht, h1, List.take_succ_cons, List.take_nil]
    left
    decide
  · rw [ha] at hs1
    have h1 : segs.take (k1 + 1) = [[], []] := by rw [← hs1]; decide
    rw [ht, h1]
    cases k2 with
    | zero => right; decide
    | succ k =>
      rw [List.take_succ_cons, List.take_succ_cons, List.take_nil]
      left
      decide
  · left
    rw [hs1] at ha
    unfold alwaysDir
    rw [hs2]
    simp only [Bool.or_eq_true]
    right
    rw [List.all_eq_true] at ha ⊢
    intro x hx
    rw [ht] at hx
    exact ha x (List.mem_of_mem_take hx)

theorem alwaysDir_chain (p : List Byte) :
    (dirChain p).Pairwise (fun a b => alwaysDir a = true → alwaysDir b = true) := by
  have hbase : ((List.range (splitByte SEP p).length).reverse.map
      (fun k => joinWith [SEP] ((splitByte SEP p).take (k + 1)))).Pairwise
      (fun a b => alwaysDir a = true → (alwaysDir b = true ∨ b = [])) := by
    rw [List.pairwise_map, List.pairwise_reverse]
    apply List.Pairwise.imp _ (List.pairwise_lt_range _)
    intro k2 k1 hk ha
    exact alwaysDir_take _ (splitByte_ne_nil SEP p) (splitByte_not_mem SEP p) k1 k2 hk ha
  unfold dirChain
  apply List.Pairwise.imp_of_mem _ (hbase.filter _)
  intro a b _ hb hab ha
  rcases hab ha with h | h
  · exact h
  · have := (List.mem_filter.mp hb).2
    simp [h] at this

theorem mkdirChain_all_none (fs : FS) (chain : List (List Byte))
    (hclosed : chain.Pairwise (fun a b => alwaysDir a = true → alwaysDir b = true))
    (h : ∀ q ∈ chain, NUL ∉ q ∧ fs q = none) :
    (mkdirChain fs chain).1 = none ∧
      ∀ q ∈ chain, alwaysDir q = true ∨ (mkdirChain fs chain).2 q = some .dir := by
  induction chain with
  | nil => exact ⟨rfl, fun q hq => by simp at hq⟩
  | cons p parents ih =>
    have hp := h p (List.mem_cons_self _ _)
    rw [List.pairwise_cons] at hclosed
    obtain ⟨ih1, ih2⟩ := ih hclosed.2 (fun q hq => h q (List.mem_cons_of_mem _ hq))
    unfold mkdirChain
    rw [if_neg hp.1]
    by_cases ha : alwaysDir p = true
    · rw [if_pos ha]
      refine ⟨rfl, ?_⟩
      intro q hq
      left
      rcases List.mem_cons.mp hq with h1 | h1
      · rw [h1]; exact ha
      · exact hclosed.1 q h1 ha
    · rw [if_neg ha, hp.2]
      rcases hr : mkdirChain fs parents with ⟨er, fs1⟩
      rw [hr] at ih1 ih2
      simp only at ih1 ih2
      subst ih1
      refine ⟨rfl, ?_⟩
      intro q hq
      simp only [FS.set]
      by_cases hqp : q = p
      · right; rw [if_pos hqp]
      · rw [if_neg hqp]
        rcases List.mem_cons.mp hq with h1 | h1
        · exact absurd h1 hqp
        · exact ih2 q h1

theorem dirPathOf_split (p : List Byte) (h : dirPathOf p ≠ []) :
    ∃ last, SEP ∉ last ∧ p = dirPathOf p ++ SEP :: last := by
  by_cases hs : SEP ∈ p
  · obtain ⟨a, b, hab, hb⟩ := exists_last_sep SEP p hs
    refine ⟨b, hb, ?_⟩
    have := dirPathOf_append_sep a b hb
    rw [← hab] at this
    rw [this]
    exact hab
  · exact absurd (dirPathOf_of_not_mem p hs) h

/-- C10, as stated: the destination `/x` contains a separator, and the call
succeeds with the one call to `os.WriteFile`: no directory creation is
requested, because the part before the last separator is empty. -/
theorem extract_no_mkdir_under_root :
    extractPathOf ⟨ascii "/", false⟩ ⟨ascii "x", 76, 5⟩ = ascii "/x" ∧
    SEP ∈ extractPathOf ⟨ascii "/", false⟩ ⟨ascii "x", 76, 5⟩ ∧
    dirPathOf (extractPathOf ⟨ascii "/", false⟩ ⟨ascii "x", 76, 5⟩) = [] ∧
    (ExtractPakFileEntry ⟨ascii "/", false⟩ (File.opened helloArchive) ⟨ascii "x", 76, 5⟩
      FS.empty).err = none ∧
    (ExtractPakFileEntry ⟨ascii "/", false⟩ (File.opened helloArchive) ⟨ascii "x", 76, 5⟩
      FS.empty).calls = [.writeFile (ascii "/x") (ascii "world")] := by
  decide

/-- C10, amended: once the payload has been read, when the part of the
destination path before its last separator is not empty, the extractor calls
`os.MkdirAll` on exactly that part (the destination is that part, a separator
and a last element without separator) and only then `os.WriteFile` on the
destination; when the destination holds no NUL byte and is not a directory
that always exists (`.`, `/`, or a path of `..` elements), nothing exists at
the directories above the destination and no directory at the destination,
the call succeeds, every directory above the destination is a directory
afterwards (one that always exists, or a directory of the tree) and the
destination is the file. When that part is empty, as for a destination
without separator, the only call is `os.WriteFile`. -/
theorem extract_directory_creation (flags : Flags) (f : File) (e : PakFileEntry) (fs : FS)
    (got : List Byte)
    (hread : ((File.mk f.data e.Offset).read e.Length).1 = .ok got) :
    (SEP ∉ extractPathOf flags e → dirPathOf (extractPathOf flags e) = []) ∧
    (dirPathOf (extractPathOf flags e) = [] →
      (ExtractPakFileEntry flags f e fs).calls
        = [.writeFile (extractPathOf flags e) (bufferOf e got)]) ∧
    (dirPathOf (extractPathOf flags e) ≠ [] →
      (∃ last, SEP ∉ last ∧
        extractPathOf flags e = dirPathOf (extractPathOf flags e) ++ SEP :: last) ∧
      ((ExtractPakFileEntry flags f e fs).calls
          = [.mkdirAll (dirPathOf (extractPathOf flags e))] ∨
        (ExtractPakFileEntry flags f e fs).calls
          = [.mkdirAll (dirPathOf (extractPathOf flags e)),
             .writeFile (extractPathOf flags e) (bufferOf e got)]) ∧
      (NUL ∉ extractPathOf flags e →
        alwaysDir (extractPathOf flags e) = false →
        (∀ q ∈ ancestorsOf (extractPathOf flags e), fs q = none) →
        fs (extractPathOf flags e) ≠ some .dir →
        (ExtractPakFileEntry flags f e fs).err = none ∧
        (ExtractPakFileEntry flags f e fs).calls
          = [.mkdirAll (dirPathOf (extractPathOf flags e)),
             .writeFile (extractPathOf flags e) (bufferOf e got)] ∧
        (∀ q ∈ ancestorsOf (extractPathOf flags e),
          alwaysDir q = true ∨ (ExtractPakFileEntry flags f e fs).fs q = some .dir) ∧
        (ExtractPakFileEntry flags f e fs).fs (extractPathOf flags e)
          = some (.file (bufferOf e got)))) := by
  refine ⟨fun h => dirPathOf_of_not_mem _ h, ?_, ?_⟩
  · intro hd
    have hnn : ¬ (dirPathOf (extractPathOf flags e) ≠ []) := by simpa using hd
    unfold ExtractPakFileEntry
    rw [seek_ofNat]
    simp only
    rcases hr : (File.mk f.data e.Offset).read e.Length with ⟨res, f2⟩
    rw [hr] at hread
    simp only at hread
    subst hread
    simp only [if_neg hnn]
    split <;> rfl
  · intro hd
    refine ⟨dirPathOf_split _ hd, ?_, ?_⟩
    · unfold ExtractPakFileEntry
      rw [seek_ofNat]
      simp only
      rcases hr : (File.mk f.data e.Offset).read e.Length with ⟨res, f2⟩
      rw [hr] at hread
      simp only at hread
      subst hread
      simp only [if_pos hd]
      split
      · left; rfl
      · split <;> (right; rfl)
    · intro hnul halways hanc hdir
      have hne : extractPathOf flags e ≠ [] := by
        intro hc
        rw [hc] at hd
        exact hd (by decide)
      have hch : ∀ q ∈ dirChain (dirPathOf (extractPathOf flags e)),
          NUL ∉ q ∧ fs q = none := by
        intro q hq
        exact ⟨not_mem_of_initial NUL q _
          ((dirChain_initial _ _ hq).trans (dirPathOf_initial _)) hnul, hanc q hq⟩
      obtain ⟨hm1, hm2⟩ := mkdirChain_all_none fs _ (alwaysDir_chain _) hch
      obtain ⟨t, ht⟩ := dirChain_head _ hd
      have hmk : MkdirAll fs (dirPathOf (extractPathOf flags e))
          = mkdirChain fs (dirChain (dirPathOf (extractPathOf flags e))) := by
        unfold MkdirAll
        rw [if_neg hd]
      rcases hm : mkdirChain fs (dirChain (dirPathOf (extractPathOf flags e))) with ⟨me, fs1⟩
      rw [hm] at hm1 hm2
      simp only at hm1 hm2
      subst hm1
      have hparent : alwaysDir (dirPathOf (extractPathOf flags e)) = true ∨
          fs1 (dirPathOf (extractPathOf flags e)) = some .dir :=
        hm2 _ (by rw [ht]; exact List.mem_cons_self _ _)
      have hfr := mkdirChain_frame fs (dirChain (dirPathOf (extractPathOf flags e)))
        (extractPathOf flags e)
      rw [hm] at hfr
      simp only at hfr
      have hdir1 : fs1 (extractPathOf flags e) ≠ some .dir := by
        rcases hfr with h | ⟨h, _, _⟩
        · rw [h]; exact hdir
        · exact absurd h (not_mem_ancestorsOf_self _ hne)
      have hw := WriteFile_ok fs1 _ (bufferOf e got) hne hnul halways hdir1 (Or.inr hparent)
      unfold ExtractPakFileEntry
      rw [seek_ofNat]
      simp only
      rcases hr : (File.mk f.data e.Offset).read e.Length with ⟨res, f2⟩
      rw [hr] at hread
      simp only at hread
      subst hread
      simp only [if_pos hd, hmk, hm, hw]
      refine ⟨trivial, trivial, ?_, ?_⟩
      · intro q hq
        have hqne : q ≠ extractPathOf flags e := by
          intro hc
          rw [hc] at hq
          exact not_mem_ancestorsOf_self _ hne hq
        simp only [FS.set, if_neg hqne]
        exact hm2 q hq
      · simp [FS.set]

set_option maxRecDepth 100000 in
theorem extract_directory_creation_witness :
    ((File.mk (File.opened helloArchive).data nestedEntry.Offset).read nestedEntry.Length).1
      = .ok (ascii "world") ∧
    extractPathOf outFlags nestedEntry = ascii "out/sub/dir/file.txt" ∧
    dirPathOf (extractPathOf outFlags nestedEntry) = ascii "out/sub/dir" ∧
    ancestorsOf (extractPathOf outFlags nestedEntry)
      = [ascii "out/sub/dir", ascii "out/sub", ascii "out"] ∧
    bufferOf nestedEntry (ascii "world") = ascii "world" ∧
    (∀ q ∈ ancestorsOf (extractPathOf outFlags nestedEntry),
      (ExtractPakFileEntry outFlags (File.opened helloArchive) nestedEntry FS.empty).fs q
        = some .dir) ∧
    ((ExtractPakFileEntry outFlags (File.opened helloArchive) nestedEntry FS.empty).err = none ∧
      (ExtractPakFileEntry outFlags (File.opened helloArchive) nestedEntry FS.empty).calls
        = [.mkdirAll (dirPathOf (extractPathOf outFlags nestedEntry)),
           .writeFile (extractPathOf outFlags nestedEntry)
             (bufferOf nestedEntry (ascii "world"))] ∧
      (∀ q ∈ ancestorsOf (extractPathOf outFlags nestedEntry),
        alwaysDir q = true ∨
        (ExtractPakFileEntry outFlags (File.opened helloArchive) nestedEntry FS.empty).fs q
          = some .dir) ∧
      (ExtractPakFileEntry outFlags (File.opened helloArchive) nestedEntry FS.empty).fs
          (extractPathOf outFlags nestedEntry)
        = some (.file (bufferOf nestedEntry (ascii "world")))) :=
  ⟨rfl, by decide, by decide, by decide, by decide, by decide,
    ((extract_directory_creation outFlags (File.opened helloArchive) nestedEntry FS.empty
      (ascii "world") rfl).2.2 (by decide)).2.2 (by decide) (by decide) (by decide)
      (by decide)⟩

set_option maxRecDepth 100000 in
/-- The destinations `.` and `../..` are directories that always exist: on the
empty tree `os.WriteFile` fails with `EISDIR` and the tree holds no file at
them afterwards. -/
theorem extract_always_directory :
    extractPathOf outFlags ⟨ascii "..", 76, 5⟩ = ascii "." ∧
    (ExtractPakFileEntry outFlags (File.opened helloArchive) ⟨ascii "..", 76, 5⟩
      FS.empty).err = some (.writeFile .EISDIR) ∧
    (ExtractPakFileEntry outFlags (File.opened helloArchive) ⟨ascii "..", 76, 5⟩
      FS.empty).fs (ascii ".") = none ∧
    extractPathOf outFlags ⟨ascii "../../..", 76, 5⟩ = ascii "../.." ∧
    (ExtractPakFileEntry outFlags (File.opened helloArchive) ⟨ascii "../../..", 76, 5⟩
      FS.empty).err = some (.writeFile .EISDIR) ∧
    (ExtractPakFileEntry outFlags (File.opened helloArchive) ⟨ascii "../../..", 76, 5⟩
      FS.empty).fs (ascii "../..") = none ∧
    (ExtractPakFileEntry outFlags (File.opened helloArchive) ⟨ascii "../../..", 76, 5⟩
      FS.empty).fs (ascii "..") = none := by
  decide

/-! ## Claims about traversal and the driver -/

set_option maxRecDepth 100000 in
/-- C11: there are an output root and an entry name with a `..` element, the
root `out` and the name `../evil`, for which `ExtractPakFileEntry` succeeds
and the one path it writes to, `evil`, is neither the output root nor below
it. -/
theorem traversal_not_sanitized :
    ∃ (flags : Flags) (entry : PakFileEntry) (file : File),
      [DOT, DOT] ∈ splitByte SEP entry.Name ∧
      extractPathOf flags entry = ascii "evil" ∧
      (ExtractPakFileEntry flags file entry FS.empty).err = none ∧
      (ExtractPakFileEntry flags file entry FS.empty).calls
        = [.writeFile (extractPathOf flags entry) (ascii "world")] ∧
      (ExtractPakFileEntry flags file entry FS.empty).fs (extractPathOf flags entry)
        = some (.file (ascii "world")) ∧
      underRoot flags.OutputDir (extractPathOf flags entry) = false :=
  ⟨outFlags, evilEntry, File.opened helloArchive, by decide⟩

theorem extractAll_eq_foldl (flags : Flags) (es : List PakFileEntry) :
    ∀ (f : File) (fs : FS), extractAll flags f es fs = es.foldl (extractStep flags) (f, fs) := by
  induction es with
  | nil => intro f fs; rfl
  | cons e rest ih =>
    intro f fs
    rw [extractAll, List.foldl_cons, ih]
    rfl

theorem extractAllLog_entries (flags : Flags) (es : List PakFileEntry) :
    ∀ (f : File) (fs : FS), (extractAllLog flags f es fs).map Prod.fst = es := by
  induction es with
  | nil => intro f fs; rfl
  | cons e rest ih =>
    intro f fs
    rw [extractAllLog, List.map_cons, ih]

/-- C12: when `CollectPakFileEntries` fails, `main` makes no call to
`ExtractPakFileEntry` and leaves the output tree as it was. -/
theorem main_aborts_on_archive_failure (flags : Flags) (data : List Byte) (fs : FS)
    (h : (CollectPakFileEntries (File.opened data)).err ≠ none) :
    mainLog flags data fs = [] ∧ main flags data fs = fs := by
  unfold mainLog main
  rw [if_pos h, if_pos h]
  exact ⟨rfl, rfl⟩

set_option maxRecDepth 100000 in
theorem main_aborts_on_archive_failure_witness :
    ((CollectPakFileEntries (File.opened badMagicHeader)).err
        = some (.invalidMagic (ascii "XXXX")) ∧
      mainLog outFlags badMagicHeader FS.empty = [] ∧
      main outFlags badMagicHeader FS.empty = FS.empty) ∧
    ((CollectPakFileEntries (File.opened (helloArchive.take 7))).err
        = some (.readHeader .unexpectedEOF) ∧
      mainLog outFlags (helloArchive.take 7) FS.empty = [] ∧
      main outFlags (helloArchive.take 7) FS.empty = FS.empty) ∧
    ((CollectPakFileEntries (File.opened (helloArchive.take 40))).err
        = some (.readEntry 0 .unexpectedEOF) ∧
      mainLog outFlags (helloArchive.take 40) FS.empty = [] ∧
      main outFlags (helloArchive.take 40) FS.empty = FS.empty) :=
  ⟨⟨by decide, main_aborts_on_archive_failure outFlags badMagicHeader FS.empty (by decide)⟩,
    ⟨by decide,
      main_aborts_on_archive_failure outFlags (helloArchive.take 7) FS.empty (by decide)⟩,
    ⟨by decide,
      main_aborts_on_archive_failure outFlags (helloArchive.take 40) FS.empty (by decide)⟩⟩

/-- C13: when `CollectPakFileEntries` succeeds, `main` calls
`ExtractPakFileEntry` once on every entry, in the order of the directory
table, whatever the errors of the earlier calls, and the output tree it leaves
is that of the loop body folded over the entries from left to right, each
error dropped. -/
theorem main_extracts_every_entry (flags : Flags) (data : List Byte) (fs : FS)
    (h : (CollectPakFileEntries (File.opened data)).err = none) :
    (mainLog flags data fs).map Prod.fst = (CollectPakFileEntries (File.opened data)).entries ∧
    main flags data fs =
      ((CollectPakFileEntries (File.opened data)).entries.foldl (extractStep flags)
        ((CollectPakFileEntries (File.opened data)).file, fs)).2 := by
  have hn : ¬ (CollectPakFileEntries (File.opened data)).err ≠ none := by simp [h]
  unfold mainLog main
  rw [if_neg hn, if_neg hn, extractAllLog_entries, extractAll_eq_foldl]
  exact ⟨rfl, rfl⟩

set_option maxRecDepth 100000 in
theorem main_extracts_every_entry_witness :
    (CollectPakFileEntries (File.opened failFirstArchive)).err = none ∧
    (mainLog outFlags failFirstArchive FS.empty).map Prod.snd
      = [some (.readData .eof), none] ∧
    main outFlags failFirstArchive FS.empty (ascii "out/kept.txt")
      = some (.file (ascii "ok")) ∧
    (mainLog outFlags failFirstArchive FS.empty).map Prod.fst
      = (CollectPakFileEntries (File.opened failFirstArchive)).entries ∧
    main outFlags failFirstArchive FS.empty =
      ((CollectPakFileEntries (File.opened failFirstArchive)).entries.foldl
        (extractStep outFlags)
        ((CollectPakFileEntries (File.opened failFirstArchive)).file, FS.empty)).2 :=
  ⟨by decide, by decide, by decide,
    main_extracts_every_entry outFlags failFirstArchive FS.empty (by decide)⟩

/-! ## Claims about the cursor -/

set_option maxRecDepth 100000 in
/-- C14, as stated: on the same content, the call succeeds with one entry from
the cursor at byte 0 and fails with the invalid-magic error from the cursor at
byte 1, because the header is read where the cursor stands. -/
theorem collect_depends_on_cursor :
    (CollectPakFileEntries ⟨helloArchive, 0⟩).err = none ∧
    (CollectPakFileEntries ⟨helloArchive, 0⟩).entries = [⟨ascii "hello.txt", 76, 5⟩] ∧
    (CollectPakFileEntries ⟨helloArchive, 1⟩).err
      = some (.invalidMagic [65, 67, 75, 12]) ∧
    (CollectPakFileEntries ⟨helloArchive, 1⟩).entries = [] := by
  decide

/-- C14, amended: the result of `CollectPakFileEntries` depends on the cursor
only through the header bytes that are read there: for two cursor positions
at which the same bytes, up to 12, are available, the entries and the error
are the same, since the records are read after a seek to the absolute
directory offset. -/
theorem collect_cursor_header (data : List Byte) (p q : Nat)
    (h : (data.drop p).take 12 = (data.drop q).take 12) :
    (CollectPakFileEntries ⟨data, p⟩).entries = (CollectPakFileEntries ⟨data, q⟩).entries ∧
    (CollectPakFileEntries ⟨data, p⟩).err = (CollectPakFileEntries ⟨data, q⟩).err := by
  unfold CollectPakFileEntries readFull
  simp only [headerSize, h]
  by_cases h1 : ((data.drop q).take 12).length = 12
  · simp only [h1, if_true]
    by_cases h2 : (decodeHeader ((data.drop q).take 12)).Magic ≠ PACK
    · simp only [if_pos h2, and_self]
    · simp only [if_neg h2, seek_ofNat, and_self]
  · simp only [h1, if_false]
    by_cases h3 : (data.drop q).take 12 = []
    · simp only [if_pos h3, and_self]
    · simp only [if_neg h3, and_self]

set_option maxRecDepth 100000 in
theorem collect_cursor_header_witness :
    ((helloArchive ++ helloArchive).drop 0).take 12
      = ((helloArchive ++ helloArchive).drop 81).take 12 ∧
    (CollectPakFileEntries ⟨helloArchive ++ helloArchive, 81⟩).entries
      = [⟨ascii "hello.txt", 76, 5⟩] ∧
    (CollectPakFileEntries ⟨helloArchive ++ helloArchive, 0⟩).entries
      = (CollectPakFileEntries ⟨helloArchive ++ helloArchive, 81⟩).entries ∧
    (CollectPakFileEntries ⟨helloArchive ++ helloArchive, 0⟩).err
      = (CollectPakFileEntries ⟨helloArchive ++ helloArchive, 81⟩).err :=
  ⟨by decide, by decide, collect_cursor_header (helloArchive ++ helloArchive) 0 81 (by decide)⟩

/-- C15: `ExtractPakFileEntry` seeks to the absolute offset of the entry before
it reads, so its whole result (the error, the tree, the calls with the bytes
written, and the file it leaves) is the same from any two cursor positions;
in particular it is the same after an earlier extraction of any other entry
as from the file as it was before. -/
theorem extract_cursor_independent (flags : Flags) (data : List Byte) (p q : Nat)
    (e : PakFileEntry) (fs : FS) :
    ExtractPakFileEntry flags ⟨data, p⟩ e fs = ExtractPakFileEntry flags ⟨data, q⟩ e fs ∧
    ∀ (e1 : PakFileEntry) (fs1 : FS),
      ExtractPakFileEntry flags (ExtractPakFileEntry flags ⟨data, p⟩ e1 fs1).file e fs
        = ExtractPakFileEntry flags ⟨data, p⟩ e fs := by
  have key : ∀ (f g : File), f.data = g.data →
      ExtractPakFileEntry flags f e fs = ExtractPakFileEntry flags g e fs := by
    intro f g hfg
    unfold ExtractPakFileEntry
    rw [seek_ofNat, seek_ofNat, hfg]
  refine ⟨key _ _ rfl, ?_⟩
  intro e1 fs1
  exact key _ _ (extract_file_data flags ⟨data, p⟩ e1 fs1)

/-! ## The exact success condition of the reader -/

theorem collectLoop_zero (i : Nat) (f : File) (acc : List PakFileEntry) :
    collectLoop 0 i f acc = { entries := acc, err := none, file := f } := by
  rw [collectLoop]

/-- C16: from a source opened at byte 0, `CollectPakFileEntries` succeeds
exactly when the source has 12 bytes, begins with `PACK`, and either the
entry count `n = dir_length / 64` is zero or `dir_offset + 64 * n`, a sum of
natural numbers, is at most the length of the source. The seek error is never
returned; with a directory length below 64 the call succeeds with no entries
wherever the directory offset points; and with `n > 0` and a source that is
too short the error is the failed read of record `i`, the least `i` with
`dir_offset + 64 * (i + 1)` past the end. -/
theorem collect_success_condition (data : List Byte) :
    ((CollectPakFileEntries (File.opened data)).err = none ↔
      12 ≤ data.length ∧ magicOf data = PACK ∧
        (dirLengthOf data / 64 = 0 ∨
          dirOffsetOf data + 64 * (dirLengthOf data / 64) ≤ data.length)) ∧
    (CollectPakFileEntries (File.opened data)).err ≠ some .seekDirectory ∧
    (12 ≤ data.length → magicOf data = PACK → dirLengthOf data < 64 →
      (CollectPakFileEntries (File.opened data)).err = none ∧
      (CollectPakFileEntries (File.opened data)).entries = []) ∧
    (12 ≤ data.length → magicOf data = PACK → 0 < dirLengthOf data / 64 →
      data.length < dirOffsetOf data + 64 * (dirLengthOf data / 64) →
      ∃ i c, (CollectPakFileEntries (File.opened data)).err = some (.readEntry i c) ∧
        i < dirLengthOf data / 64 ∧
        data.length < dirOffsetOf data + 64 * (i + 1) ∧
        ∀ j, j < i → dirOffsetOf data + 64 * (j + 1) ≤ data.length) := by
  refine ⟨⟨collect_ok_cases data, ?_⟩, ?_, ?_, ?_⟩
  · rintro ⟨hlen, hm, hn⟩
    rw [collect_of_header data hlen hm]
    rcases hn with hn | hn
    · rw [hn, collectLoop_zero]
    · rw [collectLoop_of_le _ _ _ _ (by simpa using hn)]
  · by_cases hlen : data.length < 12
    · rw [collect_of_short data hlen]; simp
    · by_cases hm : magicOf data = PACK
      · rw [collect_of_header data (by omega) hm]
        by_cases hn : dirLengthOf data / 64 = 0
        · rw [hn, collectLoop_zero]; simp
        · by_cases hle : dirOffsetOf data + 64 * (dirLengthOf data / 64) ≤ data.length
          · rw [collectLoop_of_le _ _ _ _ (by simpa using hle)]; simp
          · rw [(collectLoop_of_gt _ 0 ⟨data, dirOffsetOf data⟩ [] (by omega)
              (by simp only; omega)).2]
            simp
      · rw [collect_of_bad_magic data (by omega) hm]; simp
  · intro hlen hm hd
    have hn : dirLengthOf data / 64 = 0 := by omega
    rw [collect_of_header data hlen hm, hn, collectLoop_zero]
    exact ⟨rfl, rfl⟩
  · intro hlen hm hn hgt
    rw [collect_of_header data hlen hm]
    have hf := (collectLoop_of_gt _ 0 ⟨data, dirOffsetOf data⟩ [] hn (by simpa using hgt)).2
    simp only at hf
    refine ⟨_, _, hf, ?_, ?_, ?_⟩
    · omega
    · omega
    · intro j hj
      omega

set_option maxRecDepth 100000 in
/-- A directory offset of 1000 in a source of 12 bytes is accepted when the
directory length is 63. -/
theorem collect_far_offset_accepted :
    farOffsetArchive.length = 12 ∧ dirOffsetOf farOffsetArchive = 1000 ∧
    dirLengthOf farOffsetArchive = 63 ∧
    (CollectPakFileEntries (File.opened farOffsetArchive)).err = none ∧
    (CollectPakFileEntries (File.opened farOffsetArchive)).entries = [] := by
  decide

/-! ## The bytes the extractor writes -/

theorem take_min_drop (data : List Byte) (off len : Nat) :
    (data.take (min (off + len) data.length)).drop off = (data.drop off).take len := by
  rw [List.drop_take]
  by_cases h : off + len ≤ data.length
  · congr 1
    omega
  · have h1 : (data.drop off).length ≤ min (off + len) data.length - off := by
      rw [List.length_drop]; omega
    have h2 : (data.drop off).length ≤ len := by
      rw [List.length_drop]; omega
    rw [List.take_of_length_le h1, List.take_of_length_le h2]

theorem writtenOf_length (data : List Byte) (e : PakFileEntry) :
    (writtenOf data e).length = e.Length := by
  unfold writtenOf
  rw [List.length_append, List.length_drop, List.length_take, List.length_replicate]
  omega

theorem bufferOf_payload (data : List Byte) (e : PakFileEntry) :
    bufferOf e ((data.drop e.Offset).take e.Length) = writtenOf data e := by
  unfold bufferOf writtenOf
  rw [take_min_drop, List.length_take, List.length_drop]
  congr 2
  omega

theorem read_eof (data : List Byte) (off len : Nat) (hl : 0 < len) (h : data.length ≤ off) :
    (File.mk data off).read len = (.error .eof, ⟨data, off⟩) := by
  unfold File.read
  have h0 : (data.drop off).take len = [] := by
    apply List.eq_nil_of_length_eq_zero
    rw [List.length_take, List.length_drop]; omega
  rw [if_neg (by omega)]
  simp only [h0, if_true]

theorem read_some (data : List Byte) (off len : Nat) (h : ¬ (0 < len ∧ data.length ≤ off)) :
    ∃ f2, (File.mk data off).read len = (.ok ((data.drop off).take len), f2) := by
  unfold File.read
  by_cases hl : len = 0
  · subst hl
    exact ⟨⟨data, off⟩, by simp⟩
  · rw [if_neg hl]
    have hne : (data.drop off).take len ≠ [] := by
      intro hc
      have := congrArg List.length hc
      rw [List.length_take, List.length_drop] at this
      simp only [List.length_nil] at this
      omega
    simp only [hne, if_false]
    exact ⟨_, rfl⟩

/-- The shape of a call whose read returns `got`: the only file written is the
destination, with the buffer, and on success it is in the tree. -/
theorem extract_after_read (flags : Flags) (f f2 : File) (e : PakFileEntry) (fs : FS)
    (got : List Byte)
    (hread : (File.mk f.data e.Offset).read e.Length = (.ok got, f2)) :
    (∀ c, (ExtractPakFileEntry flags f e fs).err ≠ some (.readData c)) ∧
    (∀ name d, OsCall.writeFile name d ∈ (ExtractPakFileEntry flags f e fs).calls →
      name = extractPathOf flags e ∧ d = bufferOf e got) ∧
    ((ExtractPakFileEntry flags f e fs).err = none →
      (ExtractPakFileEntry flags f e fs).fs (extractPathOf flags e)
        = some (.file (bufferOf e got))) := by
  unfold ExtractPakFileEntry
  rw [seek_ofNat]
  simp only [hread]
  by_cases hd : dirPathOf (extractPathOf flags e) ≠ []
  · rw [if_pos hd]
    rcases hm : MkdirAll fs (dirPathOf (extractPathOf flags e)) with ⟨me, fs1⟩
    cases me with
    | some er => simp
    | none =>
      simp only
      cases hw : WriteFile fs1 (extractPathOf flags e) (bufferOf e got) with
      | error er => simp
      | ok fs2 =>
        have := WriteFile_eq _ _ _ _ hw
        subst this
        simp [FS.set]
  · rw [if_neg hd]
    cases hw : WriteFile fs (extractPathOf flags e) (bufferOf e got) with
    | error er => simp
    | ok fs2 =>
      have := WriteFile_eq _ _ _ _ hw
      subst this
      simp [FS.set]

/-- C17: the read step of `ExtractPakFileEntry` fails exactly when the entry
has a positive length and its offset is at or past the end of the source, and
then nothing is written. Otherwise the only file the call writes is the
destination, with `Length` bytes: the bytes of the source from `Offset` to
`min (Offset + Length) L` followed by zero bytes, and on success this is the
content of the destination. A zero-length entry writes the empty content; the
content is the range `[Offset, Offset + Length)` of the source exactly when
that range lies inside the source. -/
theorem extract_written_bytes (flags : Flags) (f : File) (e : PakFileEntry) (fs : FS) :
    ((∃ c, (ExtractPakFileEntry flags f e fs).err = some (.readData c)) ↔
      0 < e.Length ∧ f.data.length ≤ e.Offset) ∧
    (0 < e.Length ∧ f.data.length ≤ e.Offset →
      (ExtractPakFileEntry flags f e fs).calls = [] ∧
      (ExtractPakFileEntry flags f e fs).fs = fs) ∧
    (¬ (0 < e.Length ∧ f.data.length ≤ e.Offset) →
      (∀ name d, OsCall.writeFile name d ∈ (ExtractPakFileEntry flags f e fs).calls →
        name = extractPathOf flags e ∧ d = writtenOf f.data e) ∧
      ((ExtractPakFileEntry flags f e fs).err = none →
        (ExtractPakFileEntry flags f e fs).fs (extractPathOf flags e)
          = some (.file (writtenOf f.data e)))) ∧
    (writtenOf f.data e).length = e.Length ∧
    (e.Length = 0 → writtenOf f.data e = []) ∧
    (some (writtenOf f.data e) = sourceRange f.data e ↔
      e.Offset + e.Length ≤ f.data.length) ∧
    (e.Offset + e.Length ≤ f.data.length →
      writtenOf f.data e = (f.data.drop e.Offset).take e.Length) ∧
    (0 < e.Length → f.data.length < e.Offset + e.Length →
      writtenOf f.data e ≠ (f.data.drop e.Offset).take e.Length) := by
  have hfail : 0 < e.Length ∧ f.data.length ≤ e.Offset →
      (ExtractPakFileEntry flags f e fs).err = some (.readData .eof) ∧
      (ExtractPakFileEntry flags f e fs).calls = [] ∧
      (ExtractPakFileEntry flags f e fs).fs = fs := by
    intro h
    unfold ExtractPakFileEntry
    rw [seek_ofNat]
    simp only [read_eof f.data e.Offset e.Length h.1 h.2, and_self]
  have hin : e.Offset + e.Length ≤ f.data.length →
      writtenOf f.data e = (f.data.drop e.Offset).take e.Length := by
    intro h
    rw [← bufferOf_payload]
    unfold bufferOf
    have hl : ((f.data.drop e.Offset).take e.Length).length = e.Length := by
      rw [List.length_take, List.length_drop]; omega
    rw [hl]
    simp
  refine ⟨⟨?_, fun h => ⟨_, (hfail h).1⟩⟩, fun h => (hfail h).2, ?_, writtenOf_length _ _,
    ?_, ?_, hin, ?_⟩
  · rintro ⟨c, hc⟩
    by_contra hcond
    obtain ⟨f2, hread⟩ := read_some f.data e.Offset e.Length hcond
    exact (extract_after_read flags f f2 e fs _ hread).1 c hc
  · intro hcond
    obtain ⟨f2, hread⟩ := read_some f.data e.Offset e.Length hcond
    have h := extract_after_read flags f f2 e fs _ hread
    rw [bufferOf_payload] at h
    exact h.2
  · intro h0
    apply List.eq_nil_of_length_eq_zero
    rw [writtenOf_length, h0]
  · unfold sourceRange
    constructor
    · intro h
      by_contra hc
      rw [if_neg hc] at h
      exact absurd h (by simp)
    · intro h
      rw [if_pos h, hin h]
  · intro hl hgt hc
    have h1 := congrArg List.length hc
    rw [writtenOf_length, List.length_take, List.length_drop] at h1
    omega

/-! ## Names and name fields -/

theorem nameField_trim (field : List Byte) (h : field.length = 56) :
    (trimRightByte field NUL).length ≤ 56 ∧ nameField (trimRightByte field NUL) = field := by
  obtain ⟨k, hk⟩ := trimRightByte_append field NUL
  have hl := congrArg List.length hk
  rw [List.length_append, List.length_replicate, h] at hl
  refine ⟨by omega, ?_⟩
  unfold nameField
  have : 56 - (trimRightByte field NUL).length = k := by omega
  rw [this]
  exact hk.symm

/-- C18: when `CollectPakFileEntries` succeeds, the name of every entry it
returns has at most 56 bytes and does not end in a NUL byte, and the name
padded with NUL bytes to 56 bytes is the name field of its record; so the
names of two entries are equal exactly when the name fields of their records
are. -/
theorem name_lossless (data : List Byte)
    (h : (CollectPakFileEntries (File.opened data)).err = none)
    (i j : Nat) (hi : i < dirLengthOf data / 64) (hj : j < dirLengthOf data / 64) :
    ∃ ei ej,
      (CollectPakFileEntries (File.opened data)).entries[i]? = some ei ∧
      (CollectPakFileEntries (File.opened data)).entries[j]? = some ej ∧
      ((recordAt data (dirOffsetOf data) i).take 56).length = 56 ∧
      ei.Name.length ≤ 56 ∧
      ei.Name.getLast? ≠ some NUL ∧
      nameField ei.Name = (recordAt data (dirOffsetOf data) i).take 56 ∧
      (ei.Name = ej.Name ↔
        (recordAt data (dirOffsetOf data) i).take 56
          = (recordAt data (dirOffsetOf data) j).take 56) := by
  obtain ⟨_, _, hn⟩ := collect_ok_cases data h
  have hle : dirOffsetOf data + 64 * (dirLengthOf data / 64) ≤ data.length := by
    rcases hn with hn | hn
    · omega
    · exact hn
  have hlen : ∀ k, k < dirLengthOf data / 64 →
      ((recordAt data (dirOffsetOf data) k).take 56).length = 56 := by
    intro k hk
    unfold recordAt
    rw [List.length_take, List.length_take, List.length_drop]
    omega
  have hi2 := nameField_trim _ (hlen i hi)
  have hj2 := nameField_trim _ (hlen j hj)
  refine ⟨entryAt data (dirOffsetOf data) i, entryAt data (dirOffsetOf data) j, ?_, ?_,
    hlen i hi, hi2.1, trimRightByte_getLast _ NUL, hi2.2, ?_⟩
  · rw [collect_entries_of_ok data h, List.getElem?_map, List.getElem?_range hi]
    rfl
  · rw [collect_entries_of_ok data h, List.getElem?_map, List.getElem?_range hj]
    rfl
  · constructor
    · intro he
      have he2 : trimRightByte ((recordAt data (dirOffsetOf data) i).take 56) NUL
          = trimRightByte ((recordAt data (dirOffsetOf data) j).take 56) NUL := he
      rw [← hi2.2, ← hj2.2, he2]
    · intro he
      show trimRightByte ((recordAt data (dirOffsetOf data) i).take 56) NUL
          = trimRightByte ((recordAt data (dirOffsetOf data) j).take 56) NUL
      rw [he]

set_option maxRecDepth 100000 in
theorem name_lossless_witness :
    (CollectPakFileEntries (File.opened twoNamesArchive)).err = none ∧
    0 < dirLengthOf twoNamesArchive / 64 ∧ 1 < dirLengthOf twoNamesArchive / 64 ∧
    (CollectPakFileEntries (File.opened twoNamesArchive)).entries[0]?
      = some ⟨ascii "a", 140, 1⟩ ∧
    nameField (ascii "a") = (recordAt twoNamesArchive (dirOffsetOf twoNamesArchive) 0).take 56 ∧
    ∃ ei ej,
      (CollectPakFileEntries (File.opened twoNamesArchive)).entries[0]? = some ei ∧
      (CollectPakFileEntries (File.opened twoNamesArchive)).entries[1]? = some ej ∧
      ((recordAt twoNamesArchive (dirOffsetOf twoNamesArchive) 0).take 56).length = 56 ∧
      ei.Name.length ≤ 56 ∧
      ei.Name.getLast? ≠ some NUL ∧
      nameField ei.Name = (recordAt twoNamesArchive (dirOffsetOf twoNamesArchive) 0).take 56 ∧
      (ei.Name = ej.Name ↔
        (recordAt twoNamesArchive (dirOffsetOf twoNamesArchive) 0).take 56
          = (recordAt twoNamesArchive (dirOffsetOf twoNamesArchive) 1).take 56) :=
  ⟨by decide, by decide, by decide, by decide, by decide,
    name_lossless twoNamesArchive (by decide) 0 1 (by decide) (by decide)⟩

end PakExtract
